import Mathlib

/-!
# Prefix tree: a shallow embedding of `src/prefix_tree.c`

Conventions of the embedding.

* A C string is the list of the characters that stand before its terminating
  `'\0'`; the end of the list is the terminator, so `*s == '\0'` reads `s = []`
  and `s + 1` is the tail. A list that is a C string holds no `NUL`.
* A `char` is a `Char`: the code only stores characters and compares them for
  equality.
* A pointer that may be `NULL` is an `Option`; the callback pointer, of which
  only `cb == NULL` is ever tested, is a `Bool` (`false` for `NULL`).
* `calloc : Nat → Bool` tells whether the k-th call to `calloc` of the run
  succeeds; functions that allocate take the number of calls made so far and
  return the new number.
* A function that writes through `word->buffer` returns `none` when the write
  falls outside the allocation (undefined behaviour in C).
* The callback is an unknown function of the caller: a call `cb(word, cb_ctx)`
  is recorded, in order, with the C string found at `word` at that moment.
* The tree owns its nodes exclusively, so a node is the value
  `prefix_node.mk id is_leaf children` and an update in place through a child
  pointer is the replacement of that child in its parent.
-/

/-- The character `'\0'`. -/
def NUL : Char := Char.ofNat 0

/-- The `struct prefix_node`: `children` is the SIMPLEQ of child nodes from its
head to its tail (the `entry` links are the list structure). -/
inductive prefix_node where
  | mk (id : Char) (is_leaf : Bool) (children : List prefix_node)

namespace prefix_node

/-- Field `id`. -/
def id : prefix_node → Char
  | mk i _ _ => i

/-- Field `is_leaf`. -/
def is_leaf : prefix_node → Bool
  | mk _ l _ => l

/-- Field `children`. -/
def children : prefix_node → List prefix_node
  | mk _ _ cs => cs

end prefix_node

/-- The `struct word_buffer_st`. A byte of `buffer` is `some c` when it holds
`c` and `none` when nothing is known of it: a byte that was never written
since `malloc` returned the block has an indeterminate value, `none` unless
the contents of the block are given (`prefix_tree_lookup_on`). -/
structure word_buffer_st where
  buffer : List (Option Char)
  len : Nat

/-- The `struct prefix_tree`. -/
structure prefix_tree where
  depth : Nat
  root : prefix_node

/-- The assignment `buffer[i] = ch`; `none` when `i` is outside the block. -/
def buffer_write (buffer : List (Option Char)) (i : Nat) (ch : Char) :
    Option (List (Option Char)) :=
  if i < buffer.length then some (buffer.set i (some ch)) else none

/-- The C string that starts at `buffer`: the bytes before the first `'\0'`.
`none` when the read meets a byte that was never written, or the end of the
block, before any `'\0'`. -/
def c_str : List (Option Char) → Option (List Char)
  | [] => none
  | none :: _ => none
  | some c :: rest => if c = NUL then some [] else (c_str rest).map (c :: ·)

/-- `append_char_to_word_buffer`:
`word->buffer[word->len] = ch; word->len++; word->buffer[word->len] = '\0';` -/
def append_char_to_word_buffer (word : word_buffer_st) (ch : Char) : Option word_buffer_st :=
  match buffer_write word.buffer word.len ch with
  | none => none
  | some b1 =>
    match buffer_write b1 (word.len + 1) NUL with
    | none => none
    | some b2 => some ⟨b2, word.len + 1⟩

/-- `remove_char_from_word_buffer`: `word->len--; word->buffer[word->len] = '\0';`.
With `len = 0` the decrement wraps to `SIZE_MAX`, an index outside every
block. -/
def remove_char_from_word_buffer (word : word_buffer_st) : Option word_buffer_st :=
  if word.len = 0 then none
  else
    match buffer_write word.buffer (word.len - 1) NUL with
    | none => none
    | some b => some ⟨b, word.len - 1⟩

/-- `node_alloc`: `calloc` gives a zeroed node (`is_leaf = false`), then the id
is set and the child queue initialised empty. -/
def node_alloc (calloc : Nat → Bool) (n : Nat) (id : Char) : Option prefix_node × Nat :=
  (if calloc n then some (.mk id false []) else none, n + 1)

/-- `add_child_to_node`: `SIMPLEQ_INSERT_HEAD`. -/
def add_child_to_node (parent node : prefix_node) : prefix_node :=
  .mk parent.id parent.is_leaf (node :: parent.children)

/-- `child_lookup_by_id`: the first child, in queue order, whose id is `id`. -/
def child_lookup_by_id (tree : prefix_node) (id : Char) : Option prefix_node :=
  tree.children.find? (fun node => node.id == id)

/-- The effect, seen from the parent, of modifying in place the node that
`child_lookup_by_id` returned for `id`: that child (the first with this id) now
is `node`. -/
def child_store (id : Char) (node : prefix_node) : List prefix_node → List prefix_node
  | [] => []
  | child :: rest =>
    if child.id = id then node :: rest else child :: child_store id node rest

/-- `child_store` on the children of `tree`. -/
def child_store_in (tree : prefix_node) (id : Char) (node : prefix_node) : prefix_node :=
  .mk tree.id tree.is_leaf (child_store id node tree.children)

/-- `insert_prefix`: returns `inserted`, the node `tree` as the call leaves it,
and the number of `calloc` calls made so far. -/
def insert_prefix (calloc : Nat → Bool) :
    Nat → prefix_node → List Char → Bool × prefix_node × Nat
  | n, tree, [] => (true, .mk tree.id true tree.children, n)
  | n, tree, c :: rest =>
    match child_lookup_by_id tree c with
    | some node =>
      match insert_prefix calloc n node rest with
      | (inserted, node1, n1) =>
        (inserted, child_store_in tree c node1, n1)
    | none =>
      match node_alloc calloc n c with
      | (none, n1) => (false, tree, n1)
      | (some node, n1) =>
        match insert_prefix calloc n1 node rest with
        | (inserted, node1, n2) =>
          (inserted, child_store_in (add_child_to_node tree node) c node1, n2)

/-- One recorded call `cb(word, cb_ctx)`: `word` is the C string found at
`word->buffer` when the call is made (`none`: the string runs into
indeterminate bytes). -/
structure cb_call where
  word : Option (List Char)
  cb_ctx : Nat
deriving DecidableEq

mutual
/-- `iterate_leaves` (the callback is known to be non-NULL here; the unused
`tree` argument is left out). Returns the buffer as left and the calls made. -/
def iterate_leaves (cb_ctx : Nat) (word : word_buffer_st) :
    prefix_node → Option (word_buffer_st × List cb_call)
  | .mk _ is_leaf children =>
    let calls := if is_leaf then [cb_call.mk (c_str word.buffer) cb_ctx] else []
    match iterate_children cb_ctx word children with
    | none => none
    | some (word1, calls1) => some (word1, calls ++ calls1)
/-- `iterate_children`: the `SIMPLEQ_FOREACH` loop, from the child the loop
variable points at to the tail of the queue. -/
def iterate_children (cb_ctx : Nat) (word : word_buffer_st) :
    List prefix_node → Option (word_buffer_st × List cb_call)
  | [] => some (word, [])
  | child :: rest =>
    match append_char_to_word_buffer word child.id with
    | none => none
    | some word1 =>
      match iterate_leaves cb_ctx word1 child with
      | none => none
      | some (word2, calls1) =>
        match remove_char_from_word_buffer word2 with
        | none => none
        | some word3 =>
          match iterate_children cb_ctx word3 rest with
          | none => none
          | some (word4, calls2) => some (word4, calls1 ++ calls2)
end

/-- The loop of `find_node_matching_prefix`, entered with `node` and the rest
of the prefix. The inner `Option` is the node pointer returned. -/
def find_node_loop :
    prefix_node → word_buffer_st → List Char → Option (Option prefix_node × word_buffer_st)
  | node, word, [] => some (some node, word)
  | node, word, c :: rest =>
    match child_lookup_by_id node c with
    | none => some (none, word)
    | some child =>
      match append_char_to_word_buffer word child.id with
      | none => none
      | some word1 => find_node_loop child word1 rest

/-- `find_node_matching_prefix`. -/
def find_node_matching_prefix (tree : prefix_tree) (word : word_buffer_st)
    (prefix_in : List Char) : Option (Option prefix_node × word_buffer_st) :=
  find_node_loop tree.root word prefix_in

/-- `prefix_tree_lookup`. `cb = false` is a NULL callback, `malloc_ok` tells
whether the `malloc` of the scratch buffer succeeds. The result is the list of
the calls made to the callback, `none` if a write left the buffer. -/
def prefix_tree_lookup (malloc_ok : Bool) (tree : Option prefix_tree) (pfx : List Char)
    (cb : Bool) (cb_ctx : Nat) : Option (List cb_call) :=
  match tree with
  | none => some []
  | some t =>
    if cb = false then some []
    else if malloc_ok = false then some []
    else
      match find_node_matching_prefix t ⟨List.replicate (t.depth + 1) none, 0⟩ pfx with
      | none => none
      | some (none, _) => some []
      | some (some node, word) =>
        match iterate_leaves cb_ctx word node with
        | none => none
        | some (_, calls) => some calls

/-- `prefix_tree_lookup` on a tree and a callback that are not NULL, when
`malloc` succeeds, with the contents of the block that `malloc` returns made
explicit: `bytes i` is what the heap left in byte `i` of the block, `some c`
for the value `c`, `none` when nothing is known of the byte. The block has
`depth + 1` bytes. `prefix_tree_lookup` is the case where nothing is known of
any byte. -/
def prefix_tree_lookup_on (bytes : Nat → Option Char) (t : prefix_tree) (pfx : List Char)
    (cb_ctx : Nat) : Option (List cb_call) :=
  match find_node_matching_prefix t ⟨(List.range (t.depth + 1)).map bytes, 0⟩ pfx with
  | none => none
  | some (none, _) => some []
  | some (some node, word) =>
    match iterate_leaves cb_ctx word node with
    | none => none
    | some (_, calls) => some calls

/-- `prefix_tree_insert_word`: returns `inserted`, the tree as left, and the
number of `calloc` calls made so far. `strlen(word)` is the length of the
list. -/
def prefix_tree_insert_word (calloc : Nat → Bool) (n : Nat) (tree : Option prefix_tree)
    (word : List Char) : Bool × Option prefix_tree × Nat :=
  match tree with
  | none => (false, none, n)
  | some t =>
    let depth := word.length
    let t1 : prefix_tree := if depth > t.depth then ⟨depth, t.root⟩ else t
    match insert_prefix calloc n t1.root word with
    | (inserted, root1, n1) => (inserted, some ⟨t1.depth, root1⟩, n1)

/-- `prefix_tree_create`: `calloc` of the zeroed tree record (`depth = 0`), then
`node_alloc('\0')` for the root; `NULL` if either fails. -/
def prefix_tree_create (calloc : Nat → Bool) (n : Nat) : Option prefix_tree × Nat :=
  if calloc n then
    match node_alloc calloc (n + 1) NUL with
    | (none, n1) => (none, n1)
    | (some root, n1) => (some ⟨0, root⟩, n1)
  else (none, n + 1)

/-- Successive calls `prefix_tree_insert_word(tree, w)` on one handle, for the
words of `ws` in order: the values returned, the tree as left, and the number
of `calloc` calls made so far. -/
def insert_words (calloc : Nat → Bool) :
    Nat → Option prefix_tree → List (List Char) → List Bool × Option prefix_tree × Nat
  | n, tree, [] => ([], tree, n)
  | n, tree, w :: ws =>
    match prefix_tree_insert_word calloc n tree w with
    | (inserted, tree1, n1) =>
      match insert_words calloc n1 tree1 ws with
      | (rets, tree2, n2) => (inserted :: rets, tree2, n2)

/-- A run as in `main`: `prefix_tree_create`, then the words of `ws` inserted
in order. -/
def run (calloc : Nat → Bool) (ws : List (List Char)) : List Bool × Option prefix_tree × Nat :=
  match prefix_tree_create calloc 0 with
  | (tree, n) => insert_words calloc n tree ws

/-- The tree of a run in which every allocation succeeds. -/
def tree_of (ws : List (List Char)) : Option prefix_tree :=
  (run (fun _ => true) ws).2.1

/-- The words passed to the callback, in order. -/
def words_passed (r : Option (List cb_call)) : List (Option (List Char)) :=
  match r with
  | none => []
  | some calls => calls.map cb_call.word

/-! ## Specification-side functions on trees -/

/-- The node reached from `node` by following the characters of `path` through
`child_lookup_by_id`, if every step finds a child. -/
def walk : prefix_node → List Char → Option prefix_node
  | node, [] => some node
  | node, c :: rest =>
    match child_lookup_by_id node c with
    | none => none
    | some child => walk child rest

/-- Whether the path `w` from `node` ends at a node marked as a leaf. -/
def stored : prefix_node → List Char → Bool
  | node, [] => node.is_leaf
  | node, c :: rest =>
    match child_lookup_by_id node c with
    | none => false
    | some child => stored child rest

mutual
/-- The paths from `node` to the marked nodes at or below it, in pre-order. -/
def words_below : prefix_node → List (List Char)
  | .mk _ is_leaf children => (if is_leaf then [[]] else []) ++ words_below_list children
/-- The paths to the marked nodes at or below the nodes of a child queue, each
path starting with the id of its child. -/
def words_below_list : List prefix_node → List (List Char)
  | [] => []
  | child :: rest => (words_below child).map (child.id :: ·) ++ words_below_list rest
end

mutual
/-- The length of the longest path that leaves `node`. -/
def height : prefix_node → Nat
  | .mk _ _ children => height_list children
/-- One more than the greatest height in a child queue, 0 for an empty queue. -/
def height_list : List prefix_node → Nat
  | [] => 0
  | child :: rest => max (height child + 1) (height_list rest)
end

/-- The property `p` holds at `node` and at every node below it. -/
inductive all_nodes (p : prefix_node → Prop) : prefix_node → Prop
  | mk (id : Char) (is_leaf : Bool) (children : List prefix_node) :
      p (.mk id is_leaf children) → (∀ c ∈ children, all_nodes p c) →
      all_nodes p (.mk id is_leaf children)

/-- The ids of the children of a node, in queue order. -/
def child_ids (node : prefix_node) : List Char :=
  node.children.map prefix_node.id

/-- No two children of `node` carry the same id. -/
def uniq_node (node : prefix_node) : Prop :=
  (child_ids node).Nodup

/-- No child of `node` carries the id `NUL`. -/
def nul_free_node (node : prefix_node) : Prop :=
  NUL ∉ child_ids node

/-- Every child of `node` has a marked node at or below it. -/
def live_node (node : prefix_node) : Prop :=
  ∀ c ∈ node.children, words_below c ≠ []

/-- The words of `ws` whose insertion returned `true`, given the returned
values `rets`. -/
def inserted_words (ws : List (List Char)) (rets : List Bool) : List (List Char) :=
  ((ws.zip rets).filter (fun p => p.2)).map (fun p => p.1)

/-- The calls that the traversal below a node makes for the paths `ws`, when the
buffer holds `pre` on entry. -/
def calls_for (cb_ctx : Nat) (pre : List Char) (ws : List (List Char)) : List cb_call :=
  ws.map (fun s => cb_call.mk (some (pre ++ s)) cb_ctx)

/-- What `iterate_leaves` does at `t`, for every buffer that holds `pre`, one
more byte `x` and then at least `height t` bytes. -/
def leaves_spec (cb_ctx : Nat) (t : prefix_node) : Prop :=
  ∀ (pre : List Char) (x : Option Char) (junk : List (Option Char)),
    NUL ∉ pre → height t ≤ junk.length →
    ∃ (x1 : Option Char) (junk1 : List (Option Char)), junk1.length = junk.length ∧
      iterate_leaves cb_ctx ⟨pre.map some ++ x :: junk, pre.length⟩ t =
        some (⟨pre.map some ++ x1 :: junk1, pre.length⟩,
          (if t.is_leaf then [cb_call.mk (c_str (pre.map some ++ x :: junk)) cb_ctx] else []) ++
            calls_for cb_ctx pre (words_below_list t.children))

/-- The words that `prefix_tree_lookup` passes to the callback for `pfx`, in
order, when no write leaves the buffer: nothing if the path `pfx` does not
exist; otherwise the path itself if its node is marked (read from a buffer
that was never written if `pfx` is empty), then the marked paths below it. -/
def lookup_words (t : prefix_tree) (pfx : List Char) : List (Option (List Char)) :=
  match walk t.root pfx with
  | none => []
  | some m =>
    (if m.is_leaf then [if pfx = [] then none else some pfx] else []) ++
      (words_below_list m.children).map (fun s => some (pfx ++ s))

/-- The state that insertions keep: unique child ids, no id `NUL`, and no
path longer than `depth`. -/
def good (t : prefix_tree) : Prop :=
  all_nodes uniq_node t.root ∧ all_nodes nul_free_node t.root ∧ height t.root ≤ t.depth

/-- The greatest length among the words of `ws`, 0 if there is none. -/
def max_len : List (List Char) → Nat
  | [] => 0
  | w :: ws => max w.length (max_len ws)

mutual
/-- The number of nodes at or below `node`. -/
def node_count : prefix_node → Nat
  | .mk _ _ children => 1 + node_count_list children
/-- The number of nodes at or below the nodes of a child queue. -/
def node_count_list : List prefix_node → Nat
  | [] => 0
  | child :: rest => node_count child + node_count_list rest
end

/-- The tree that holds the words "", "a" and "ab". -/
def tree_e_a_ab : prefix_tree :=
  ⟨2, .mk NUL true [.mk 'a' true [.mk 'b' true []]]⟩

/-- A heap that left `'\0'` in every byte. -/
def bytes_zero : Nat → Option Char :=
  fun _ => some NUL

/-- A heap that left the string `s`, then `'\0'` bytes. -/
def bytes_of (s : List Char) : Nat → Option Char :=
  fun i => some (s.getD i NUL)

/-- The tree that holds the one word "ab". -/
def tree_ab : prefix_tree :=
  ⟨2, .mk NUL false [.mk 'a' false [.mk 'b' true []]]⟩

/-- The place, in a child queue, of the first child whose id is `id`: the place
of the node that `child_lookup_by_id` returns. -/
def child_index (id : Char) : List prefix_node → Option Nat
  | [] => none
  | child :: rest => if child.id = id then some 0 else (child_index id rest).map (· + 1)

/-- The node at a position below `node`. A position is the list of the places,
in the successive child queues, of the nodes on the way down: it names one node
of the tree, as a pointer does. -/
def node_at : prefix_node → List Nat → Option prefix_node
  | node, [] => some node
  | node, i :: rest =>
    match node.children[i]? with
    | none => none
    | some child => node_at child rest

/-- The child ids met on the way from `node` to a position. -/
def ids_at : prefix_node → List Nat → List Char
  | _, [] => []
  | node, i :: rest =>
    match node.children[i]? with
    | none => []
    | some child => child.id :: ids_at child rest

/-- The position that successive calls of `child_lookup_by_id` reach from
`node` for the ids of `path`, if every call finds a child. -/
def walk_pos : prefix_node → List Char → Option (List Nat)
  | _, [] => some []
  | node, c :: rest =>
    match child_index c node.children with
    | none => none
    | some i =>
      match node.children[i]? with
      | none => none
      | some child => (walk_pos child rest).map (i :: ·)

/-- What keeps the traversal below `t` inside a buffer: it returns, with `len`
and the size of the buffer as they were, whenever `len + height t` is an index
of the buffer. -/
def leaves_in_bounds (cb_ctx : Nat) (t : prefix_node) : Prop :=
  ∀ word : word_buffer_st, word.len + height t < word.buffer.length →
    ∃ word1 calls, iterate_leaves cb_ctx word t = some (word1, calls) ∧
      word1.len = word.len ∧ word1.buffer.length = word.buffer.length

/-- The order that a pre-order traversal gives to two words passed: the later
one, `b`, is not a proper prefix of the earlier one, `a`. -/
def not_after (a b : Option (List Char)) : Prop :=
  ∀ U V : List Char, a = some V → b = some U → ¬ (U <+: V ∧ U ≠ V)

mutual
/-- The sequences of child ids that lead from `node` to the nodes at or below
it, `node` itself included with the empty sequence, in pre-order. -/
def paths : prefix_node → List (List Char)
  | .mk _ _ children => [] :: paths_list children
/-- The sequences of child ids that lead to the nodes at or below the nodes of
a child queue, each starting with the id of its child. -/
def paths_list : List prefix_node → List (List Char)
  | [] => []
  | child :: rest => (paths child).map (child.id :: ·) ++ paths_list rest
end

/-- The prefixes of the words of `ws` that are not empty, each listed once. -/
def nonempty_prefixes (ws : List (List Char)) : List (List Char) :=
  (ws.flatMap (fun w => w.inits.filter (fun p => decide (p ≠ [])))).dedup

/-- The prefixes of `w`, `w` included, that are not paths from `node`. -/
def missing_prefixes (node : prefix_node) (w : List Char) : List (List Char) :=
  w.inits.filter (fun p => (walk node p).isNone)

/-! ## Basic facts -/

theorem prefix_node.id_mk (i : Char) (l : Bool) (cs : List prefix_node) :
    (prefix_node.mk i l cs).id = i := rfl

theorem prefix_node.is_leaf_mk (i : Char) (l : Bool) (cs : List prefix_node) :
    (prefix_node.mk i l cs).is_leaf = l := rfl

theorem prefix_node.children_mk (i : Char) (l : Bool) (cs : List prefix_node) :
    (prefix_node.mk i l cs).children = cs := rfl

theorem prefix_node.eta (t : prefix_node) : prefix_node.mk t.id t.is_leaf t.children = t := by
  cases t; rfl

/-- Induction on a node from its children. -/
theorem prefix_node.induct {P : prefix_node → Prop}
    (h : ∀ id is_leaf children, (∀ c ∈ children, P c) → P (.mk id is_leaf children)) :
    ∀ t, P t := by
  intro t
  refine prefix_node.rec (motive_1 := P) (motive_2 := fun cs => ∀ c ∈ cs, P c) ?_ ?_ ?_ t
  · intro id is_leaf children ih
    exact h id is_leaf children ih
  · intro c hc
    cases hc
  · intro head tail hh ht c hc
    rcases List.mem_cons.mp hc with rfl | hc
    · exact hh
    · exact ht c hc

theorem all_nodes_iff (p : prefix_node → Prop) (t : prefix_node) :
    all_nodes p t ↔ p t ∧ ∀ c ∈ t.children, all_nodes p c := by
  constructor
  · intro h
    cases h with
    | mk id is_leaf children hp hc => exact ⟨hp, hc⟩
  · intro h
    cases t with
    | mk id is_leaf children => exact all_nodes.mk id is_leaf children h.1 h.2

theorem words_below_eq (t : prefix_node) :
    words_below t = (if t.is_leaf then [[]] else []) ++ words_below_list t.children := by
  cases t; simp [words_below, prefix_node.is_leaf, prefix_node.children]

theorem height_eq (t : prefix_node) : height t = height_list t.children := by
  cases t; simp [height, prefix_node.children]

theorem height_list_mem {cs : List prefix_node} {c : prefix_node} (hc : c ∈ cs) :
    height c + 1 ≤ height_list cs := by
  induction cs with
  | nil => cases hc
  | cons head tail ih =>
    simp only [height_list]
    rcases List.mem_cons.mp hc with rfl | hc
    · exact le_max_left _ _
    · exact le_trans (ih hc) (le_max_right _ _)

theorem height_list_le {cs : List prefix_node} {k : Nat}
    (h : ∀ c ∈ cs, height c + 1 ≤ k) : height_list cs ≤ k := by
  induction cs with
  | nil => simp [height_list]
  | cons head tail ih =>
    simp only [height_list]
    exact max_le (h head (List.mem_cons_self _ _))
      (ih (fun c hc => h c (List.mem_cons_of_mem _ hc)))

/-! ## Child lookup and in-place update -/

theorem child_lookup_some {t node : prefix_node} {c : Char}
    (h : child_lookup_by_id t c = some node) : node ∈ t.children ∧ node.id = c := by
  unfold child_lookup_by_id at h
  have h1 := List.find?_some h
  have h2 := List.mem_of_find?_eq_some h
  exact ⟨h2, by simpa using h1⟩

theorem child_lookup_none {t : prefix_node} {c : Char}
    (h : child_lookup_by_id t c = none) : ∀ x ∈ t.children, x.id ≠ c := by
  unfold child_lookup_by_id at h
  intro x hx
  have := List.find?_eq_none.mp h x hx
  simpa using this

theorem find_cons_eq {head : prefix_node} {c : Char} (tail : List prefix_node)
    (h : head.id = c) : (head :: tail).find? (fun m => m.id == c) = some head :=
  List.find?_cons_of_pos _ (by simp [h])

theorem find_cons_ne {head : prefix_node} {c : Char} (tail : List prefix_node)
    (h : head.id ≠ c) :
    (head :: tail).find? (fun m => m.id == c) = tail.find? (fun m => m.id == c) :=
  List.find?_cons_of_neg _ (by simp [h])

theorem find_child_store_same {cs : List prefix_node} {c : Char} {x node : prefix_node}
    (hx : cs.find? (fun m => m.id == c) = some x) (hn : node.id = c) :
    (child_store c node cs).find? (fun m => m.id == c) = some node := by
  induction cs with
  | nil => simp at hx
  | cons head tail ih =>
    by_cases hh : head.id = c
    · rw [child_store, if_pos hh, find_cons_eq _ hn]
    · rw [find_cons_ne _ hh] at hx
      rw [child_store, if_neg hh, find_cons_ne _ hh, ih hx]

theorem find_child_store_other {cs : List prefix_node} {c d : Char} {node : prefix_node}
    (hn : node.id = c) (hd : d ≠ c) :
    (child_store c node cs).find? (fun m => m.id == d) = cs.find? (fun m => m.id == d) := by
  induction cs with
  | nil => simp [child_store]
  | cons head tail ih =>
    by_cases hh : head.id = c
    · have h1 : head.id ≠ d := by rw [hh]; exact fun e => hd e.symm
      have h2 : node.id ≠ d := by rw [hn]; exact fun e => hd e.symm
      rw [child_store, if_pos hh, find_cons_ne _ h1, find_cons_ne _ h2]
    · rw [child_store, if_neg hh]
      by_cases hh2 : head.id = d
      · rw [find_cons_eq _ hh2, find_cons_eq _ hh2]
      · rw [find_cons_ne _ hh2, find_cons_ne _ hh2, ih]

theorem child_store_self {cs : List prefix_node} {c : Char} {x : prefix_node}
    (hx : cs.find? (fun m => m.id == c) = some x) : child_store c x cs = cs := by
  induction cs with
  | nil => simp [child_store]
  | cons head tail ih =>
    by_cases hh : head.id = c
    · rw [find_cons_eq _ hh] at hx
      rw [child_store, if_pos hh, ← Option.some.inj hx]
    · rw [find_cons_ne _ hh] at hx
      rw [child_store, if_neg hh, ih hx]

/-! ## Unfolding `insert_prefix` -/

theorem insert_prefix_nil (calloc : Nat → Bool) (n : Nat) (t : prefix_node) :
    insert_prefix calloc n t [] = (true, .mk t.id true t.children, n) := by
  simp [ insert_prefix]

theorem insert_prefix_found (calloc : Nat → Bool) (n : Nat) {t node : prefix_node} {c : Char}
    (rest : List Char) (h : child_lookup_by_id t c = some node) :
    insert_prefix calloc n t (c :: rest) =
      (( insert_prefix calloc n node rest).1,
       child_store_in t c ( insert_prefix calloc n node rest).2.1,
       ( insert_prefix calloc n node rest).2.2) := by
  simp [ insert_prefix, h]

theorem insert_prefix_fail (calloc : Nat → Bool) (n : Nat) {t : prefix_node} {c : Char}
    (rest : List Char) (h : child_lookup_by_id t c = none) (ha : calloc n = false) :
    insert_prefix calloc n t (c :: rest) = (false, t, n + 1) := by
  simp [ insert_prefix, h, node_alloc, ha]

theorem insert_prefix_new (calloc : Nat → Bool) (n : Nat) {t : prefix_node} {c : Char}
    (rest : List Char) (h : child_lookup_by_id t c = none) (ha : calloc n = true) :
    insert_prefix calloc n t (c :: rest) =
      (( insert_prefix calloc (n + 1) (.mk c false []) rest).1,
       .mk t.id t.is_leaf (( insert_prefix calloc (n + 1) (.mk c false []) rest).2.1 :: t.children),
       ( insert_prefix calloc (n + 1) (.mk c false []) rest).2.2) := by
  simp [ insert_prefix, h, node_alloc, ha, child_store_in, add_child_to_node, child_store,
    prefix_node.id, prefix_node.is_leaf, prefix_node.children]

theorem insert_prefix_id (calloc : Nat → Bool) (w : List Char) :
    ∀ (n : Nat) (t : prefix_node), ( insert_prefix calloc n t w).2.1.id = t.id := by
  cases w with
  | nil => intro n t; simp [ insert_prefix_nil, prefix_node.id]
  | cons c rest =>
    intro n t
    cases h : child_lookup_by_id t c with
    | some node => simp [ insert_prefix_found calloc n rest h, child_store_in, prefix_node.id]
    | none =>
      cases ha : calloc n with
      | false => simp [ insert_prefix_fail calloc n rest h ha]
      | true => simp [ insert_prefix_new calloc n rest h ha, prefix_node.id]

theorem child_lookup_store_same {t node x : prefix_node} {c : Char}
    (hx : child_lookup_by_id t c = some x) (hn : node.id = c) :
    child_lookup_by_id (child_store_in t c node) c = some node := by
  unfold child_lookup_by_id at hx ⊢
  simpa [child_store_in, prefix_node.children] using find_child_store_same hx hn

theorem child_lookup_store_other {t node : prefix_node} {c d : Char}
    (hn : node.id = c) (hd : d ≠ c) :
    child_lookup_by_id (child_store_in t c node) d = child_lookup_by_id t d := by
  unfold child_lookup_by_id
  simpa [child_store_in, prefix_node.children] using find_child_store_other hn hd

theorem child_lookup_new_same (id : Char) (l : Bool) (cs : List prefix_node)
    {node : prefix_node} {c : Char} (hn : node.id = c) :
    child_lookup_by_id (.mk id l (node :: cs)) c = some node := by
  unfold child_lookup_by_id
  simpa [prefix_node.children] using find_cons_eq cs hn

theorem child_lookup_new_other (id : Char) (l : Bool) (cs : List prefix_node)
    {node : prefix_node} {c d : Char} (hn : node.id = c) (hd : d ≠ c) :
    child_lookup_by_id (.mk id l (node :: cs)) d = cs.find? (fun m => m.id == d) := by
  unfold child_lookup_by_id
  have h : node.id ≠ d := by rw [hn]; exact fun e => hd e.symm
  simpa [prefix_node.children] using find_cons_ne cs h

theorem stored_fresh (c : Char) (v : List Char) : stored (.mk c false []) v = false := by
  cases v with
  | nil => simp [stored, prefix_node.is_leaf]
  | cons d rest => simp [stored, child_lookup_by_id, prefix_node.children]

theorem walk_fresh (c : Char) (d : Char) (v : List Char) :
    walk (.mk c false []) (d :: v) = none := by
  simp [walk, child_lookup_by_id, prefix_node.children]

/-! ## What an insertion stores -/

/-- After `insert_prefix` the marked paths are those marked before, and the
inserted word if the call returned `true`. -/
theorem stored_after_insert (calloc : Nat → Bool) (w : List Char) :
    ∀ (n : Nat) (t : prefix_node) (v : List Char),
      stored ( insert_prefix calloc n t w).2.1 v =
        (stored t v || (( insert_prefix calloc n t w).1 && decide (v = w))) := by
  induction w with
  | nil =>
    intro n t v
    rw [insert_prefix_nil]
    cases v with
    | nil => simp [stored, prefix_node.is_leaf]
    | cons d rest => simp [stored, child_lookup_by_id, prefix_node.children]
  | cons c rest ih =>
    intro n t v
    cases h : child_lookup_by_id t c with
    | some node =>
      rw [insert_prefix_found calloc n rest h]
      have hid : ( insert_prefix calloc n node rest).2.1.id = c := by
        rw [insert_prefix_id]; exact (child_lookup_some h).2
      cases v with
      | nil => simp [stored, child_store_in, prefix_node.is_leaf]
      | cons d v1 =>
        by_cases hd : d = c
        · subst hd
          simp only [stored, child_lookup_store_same h hid, h, ih n node v1]
          simp
        · simp only [stored, child_lookup_store_other hid hd]
          simp [hd]
    | none =>
      cases ha : calloc n with
      | false => simp [ insert_prefix_fail calloc n rest h ha]
      | true =>
        rw [insert_prefix_new calloc n rest h ha]
        have hid : ( insert_prefix calloc (n + 1) (.mk c false []) rest).2.1.id = c := by
          rw [insert_prefix_id]; rfl
        cases v with
        | nil => simp [stored, prefix_node.is_leaf]
        | cons d v1 =>
          by_cases hd : d = c
          · subst hd
            simp only [stored, child_lookup_new_same _ _ _ hid, h, ih (n + 1) _ v1, stored_fresh]
            simp
          · simp only [stored, child_lookup_new_other _ _ _ hid hd]
            have : child_lookup_by_id t d = t.children.find? (fun m => m.id == d) := rfl
            rw [this]
            simp [hd]

/-! ## Allocation failures -/

theorem insert_prefix_calls_le (calloc : Nat → Bool) (w : List Char) :
    ∀ (n : Nat) (t : prefix_node), n ≤ ( insert_prefix calloc n t w).2.2 := by
  induction w with
  | nil => intro n t; simp [ insert_prefix_nil]
  | cons c rest ih =>
    intro n t
    cases h : child_lookup_by_id t c with
    | some node => rw [insert_prefix_found calloc n rest h]; exact ih n node
    | none =>
      cases ha : calloc n with
      | false => simp [ insert_prefix_fail calloc n rest h ha]
      | true =>
        rw [insert_prefix_new calloc n rest h ha]
        exact le_trans (Nat.le_succ n) (ih (n + 1) _)

/-- `insert_prefix` returns `false` exactly when one of the `calloc` calls it
made failed. -/
theorem insert_prefix_false_iff (calloc : Nat → Bool) (w : List Char) :
    ∀ (n : Nat) (t : prefix_node),
      ( insert_prefix calloc n t w).1 = false ↔
        ∃ k, n ≤ k ∧ k < ( insert_prefix calloc n t w).2.2 ∧ calloc k = false := by
  induction w with
  | nil =>
    intro n t
    rw [insert_prefix_nil]
    constructor
    · intro h; cases h
    · rintro ⟨k, h1, h2, _⟩
      exact absurd h2 (Nat.not_lt.mpr h1)
  | cons c rest ih =>
    intro n t
    cases h : child_lookup_by_id t c with
    | some node => rw [insert_prefix_found calloc n rest h]; exact ih n node
    | none =>
      cases ha : calloc n with
      | false =>
        rw [insert_prefix_fail calloc n rest h ha]
        constructor
        · intro _; exact ⟨n, le_refl n, Nat.lt_succ_self n, ha⟩
        · intro _; rfl
      | true =>
        rw [insert_prefix_new calloc n rest h ha]
        simp only
        rw [ih (n + 1) _]
        constructor
        · rintro ⟨k, h1, h2, h3⟩
          exact ⟨k, by omega, h2, h3⟩
        · rintro ⟨k, h1, h2, h3⟩
          have hk : k ≠ n := by
            intro e; rw [e, ha] at h3; cases h3
          exact ⟨k, by omega, h2, h3⟩

/-! ## Invariants kept by `insert_prefix` -/

theorem mem_child_store {cs : List prefix_node} {c : Char} {node m : prefix_node}
    (h : m ∈ child_store c node cs) : m = node ∨ m ∈ cs := by
  induction cs with
  | nil => simp [child_store] at h
  | cons head tail ih =>
    by_cases hh : head.id = c
    · rw [child_store, if_pos hh] at h
      rcases List.mem_cons.mp h with h | h
      · exact Or.inl h
      · exact Or.inr (List.mem_cons_of_mem _ h)
    · rw [child_store, if_neg hh] at h
      rcases List.mem_cons.mp h with h | h
      · exact Or.inr (h ▸ List.mem_cons_self _ _)
      · rcases ih h with h | h
        · exact Or.inl h
        · exact Or.inr (List.mem_cons_of_mem _ h)

theorem child_store_mem_self {cs : List prefix_node} {c : Char} {x : prefix_node}
    (node : prefix_node) (hx : cs.find? (fun m => m.id == c) = some x) :
    node ∈ child_store c node cs := by
  induction cs with
  | nil => simp at hx
  | cons head tail ih =>
    by_cases hh : head.id = c
    · rw [child_store, if_pos hh]; exact List.mem_cons_self _ _
    · rw [find_cons_ne _ hh] at hx
      rw [child_store, if_neg hh]
      exact List.mem_cons_of_mem _ (ih hx)

theorem child_store_ids {cs : List prefix_node} {c : Char} {node : prefix_node}
    (hn : node.id = c) :
    (child_store c node cs).map prefix_node.id = cs.map prefix_node.id := by
  induction cs with
  | nil => simp [child_store]
  | cons head tail ih =>
    by_cases hh : head.id = c
    · rw [child_store, if_pos hh]; simp [hn, hh]
    · rw [child_store, if_neg hh]; simp [ih]

theorem child_ids_not_mem {t : prefix_node} {c : Char} (h : child_lookup_by_id t c = none) :
    c ∉ child_ids t := by
  intro hc
  rcases List.mem_map.mp hc with ⟨x, hx, hxc⟩
  exact child_lookup_none h x hx hxc

/-- A property of the list of child ids that holds for no children and
survives a new id in front holds at every node after `insert_prefix`, if it
did before. -/
theorem insert_prefix_child_ids (R : List Char → Prop) (okc : Char → Prop) (h0 : R [])
    (hcons : ∀ c ids, okc c → c ∉ ids → R ids → R (c :: ids))
    (calloc : Nat → Bool) (w : List Char) :
    (∀ c ∈ w, okc c) → ∀ (n : Nat) (t : prefix_node),
      all_nodes (fun m => R (child_ids m)) t →
      all_nodes (fun m => R (child_ids m)) ( insert_prefix calloc n t w).2.1 := by
  induction w with
  | nil =>
    intro _ n t ht
    rw [insert_prefix_nil]
    rw [all_nodes_iff] at ht ⊢
    exact ht
  | cons c rest ih =>
    intro hw n t ht
    have hrest : ∀ d ∈ rest, okc d := fun d hd => hw d (List.mem_cons_of_mem _ hd)
    rw [all_nodes_iff] at ht
    cases h : child_lookup_by_id t c with
    | some node =>
      rw [insert_prefix_found calloc n rest h]
      have hid : ( insert_prefix calloc n node rest).2.1.id = c := by
        rw [insert_prefix_id]; exact (child_lookup_some h).2
      rw [all_nodes_iff]
      constructor
      · simpa [child_ids, child_store_in, prefix_node.children, child_store_ids hid] using ht.1
      · intro m hm
        rcases mem_child_store hm with hm | hm
        · rw [hm]; exact ih hrest n node (ht.2 node (child_lookup_some h).1)
        · exact ht.2 m hm
    | none =>
      cases ha : calloc n with
      | false =>
        rw [insert_prefix_fail calloc n rest h ha]
        exact (all_nodes_iff _ _).mpr ht
      | true =>
        rw [insert_prefix_new calloc n rest h ha]
        have hid : ( insert_prefix calloc (n + 1) (.mk c false []) rest).2.1.id = c := by
          rw [insert_prefix_id]; rfl
        rw [all_nodes_iff]
        constructor
        · have := hcons c (child_ids t) (hw c (List.mem_cons_self _ _)) (child_ids_not_mem h) ht.1
          simpa [child_ids, prefix_node.children, hid] using this
        · intro m hm
          rcases List.mem_cons.mp hm with hm | hm
          · rw [hm]
            apply ih hrest
            rw [all_nodes_iff]
            exact ⟨by simpa [child_ids, prefix_node.children] using h0,
              by intro x hx; simp [prefix_node.children] at hx⟩
          · exact ht.2 m hm

theorem insert_prefix_uniq (calloc : Nat → Bool) (w : List Char) (n : Nat) (t : prefix_node)
    (ht : all_nodes uniq_node t) : all_nodes uniq_node ( insert_prefix calloc n t w).2.1 :=
  insert_prefix_child_ids List.Nodup (fun _ => True) List.nodup_nil
    (fun _ _ _ hc hr => List.nodup_cons.mpr ⟨hc, hr⟩) calloc w (fun _ _ => trivial) n t ht

theorem insert_prefix_nul_free (calloc : Nat → Bool) (w : List Char) (hw : NUL ∉ w) (n : Nat)
    (t : prefix_node) (ht : all_nodes nul_free_node t) :
    all_nodes nul_free_node ( insert_prefix calloc n t w).2.1 :=
  insert_prefix_child_ids (fun ids => NUL ∉ ids) (fun c => c ≠ NUL) (List.not_mem_nil _)
    (fun c ids hc _ hr hmem => by
      rcases List.mem_cons.mp hmem with h | h
      · exact hc h.symm
      · exact hr h)
    calloc w (fun c hc e => hw (e ▸ hc)) n t ht

theorem insert_prefix_height (calloc : Nat → Bool) (w : List Char) :
    ∀ (n : Nat) (t : prefix_node),
      height ( insert_prefix calloc n t w).2.1 ≤ max (height t) w.length := by
  induction w with
  | nil =>
    intro n t
    rw [insert_prefix_nil, height_eq, height_eq t]
    simp [prefix_node.children]
  | cons c rest ih =>
    intro n t
    cases h : child_lookup_by_id t c with
    | some node =>
      rw [insert_prefix_found calloc n rest h, height_eq, height_eq t]
      apply height_list_le
      intro m hm
      rcases mem_child_store hm with hm | hm
      · rw [hm]
        have h1 := ih n node
        have h2 := height_list_mem (child_lookup_some h).1
        simp only [List.length_cons]
        omega
      · have h2 := height_list_mem hm
        omega
    | none =>
      cases ha : calloc n with
      | false => rw [insert_prefix_fail calloc n rest h ha]; exact le_max_left _ _
      | true =>
        rw [insert_prefix_new calloc n rest h ha, height_eq, height_eq t]
        apply height_list_le
        intro m hm
        rcases List.mem_cons.mp hm with hm | hm
        · rw [hm]
          have h1 := ih (n + 1) (.mk c false [])
          have h3 : height (.mk c false []) = 0 := by simp [height, height_list]
          simp only [List.length_cons]
          omega
        · have h2 := height_list_mem hm
          omega

theorem words_below_list_ne_nil {cs : List prefix_node} {m : prefix_node} (hm : m ∈ cs)
    (h : words_below m ≠ []) : words_below_list cs ≠ [] := by
  induction cs with
  | nil => cases hm
  | cons head tail ih =>
    simp only [words_below_list]
    rcases List.mem_cons.mp hm with hm | hm
    · subst hm
      simp [h]
    · simp [ih hm]

/-- A successful `insert_prefix` leaves a marked node at or below `tree`, and
keeps the property that every child has one. -/
theorem insert_prefix_live (calloc : Nat → Bool) (w : List Char) :
    ∀ (n : Nat) (t : prefix_node), ( insert_prefix calloc n t w).1 = true →
      words_below ( insert_prefix calloc n t w).2.1 ≠ [] ∧
      (all_nodes live_node t → all_nodes live_node ( insert_prefix calloc n t w).2.1) := by
  induction w with
  | nil =>
    intro n t _
    rw [insert_prefix_nil]
    constructor
    · simp [words_below]
    · intro ht
      rw [all_nodes_iff] at ht ⊢
      exact ht
  | cons c rest ih =>
    intro n t
    cases h : child_lookup_by_id t c with
    | some node =>
      rw [insert_prefix_found calloc n rest h]
      intro hs
      have hi := ih n node hs
      have hmem : ( insert_prefix calloc n node rest).2.1 ∈
          (child_store_in t c ( insert_prefix calloc n node rest).2.1).children := by
        simpa [child_store_in, prefix_node.children] using child_store_mem_self _ h
      constructor
      · rw [words_below_eq]
        intro e
        exact words_below_list_ne_nil hmem hi.1 (List.append_eq_nil.mp e).2
      · intro ht
        rw [all_nodes_iff] at ht ⊢
        constructor
        · intro m hm
          rcases mem_child_store hm with hm | hm
          · rw [hm]; exact hi.1
          · exact ht.1 m hm
        · intro m hm
          rcases mem_child_store hm with hm | hm
          · rw [hm]; exact hi.2 (ht.2 node (child_lookup_some h).1)
          · exact ht.2 m hm
    | none =>
      cases ha : calloc n with
      | false => rw [insert_prefix_fail calloc n rest h ha]; intro hs; cases hs
      | true =>
        rw [insert_prefix_new calloc n rest h ha]
        intro hs
        have hi := ih (n + 1) (.mk c false []) hs
        have hfresh : all_nodes live_node (.mk c false []) := by
          rw [all_nodes_iff]
          constructor
          · intro x hx; simp [prefix_node.children] at hx
          · intro x hx; simp [prefix_node.children] at hx
        constructor
        · rw [words_below_eq]
          intro e
          exact words_below_list_ne_nil (List.mem_cons_self _ _) hi.1 (List.append_eq_nil.mp e).2
        · intro ht
          rw [all_nodes_iff] at ht ⊢
          constructor
          · intro m hm
            rcases List.mem_cons.mp hm with hm | hm
            · rw [hm]; exact hi.1
            · exact ht.1 m hm
          · intro m hm
            rcases List.mem_cons.mp hm with hm | hm
            · rw [hm]; exact hi.2 hfresh
            · exact ht.2 m hm

/-! ## The enumeration and the marked paths -/

theorem mem_words_below_list {cs : List prefix_node} {v : List Char} :
    v ∈ words_below_list cs ↔ ∃ c ∈ cs, ∃ s ∈ words_below c, v = c.id :: s := by
  induction cs with
  | nil => simp [words_below_list]
  | cons head tail ih =>
    simp only [words_below_list, List.mem_append, List.mem_map, ih, List.mem_cons]
    constructor
    · rintro (⟨s, hs, rfl⟩ | ⟨c, hc, s, hs, rfl⟩)
      · exact ⟨head, Or.inl rfl, s, hs, rfl⟩
      · exact ⟨c, Or.inr hc, s, hs, rfl⟩
    · rintro ⟨c, hc | hc, s, hs, rfl⟩
      · subst hc; exact Or.inl ⟨s, hs, rfl⟩
      · exact Or.inr ⟨c, hc, s, hs, rfl⟩

theorem find_of_nodup {cs : List prefix_node} {c : prefix_node}
    (hn : (cs.map prefix_node.id).Nodup) (hc : c ∈ cs) :
    cs.find? (fun m => m.id == c.id) = some c := by
  induction cs with
  | nil => cases hc
  | cons head tail ih =>
    rw [List.map_cons, List.nodup_cons] at hn
    rcases List.mem_cons.mp hc with hc | hc
    · subst hc; exact find_cons_eq _ rfl
    · have hne : head.id ≠ c.id := by
        intro e
        exact hn.1 (e ▸ List.mem_map_of_mem _ hc)
      rw [find_cons_ne _ hne]
      exact ih hn.2 hc

/-- With unique child ids, the enumeration below a node lists exactly the
marked paths. -/
theorem mem_words_below_iff :
    ∀ t : prefix_node, all_nodes uniq_node t →
      ∀ v : List Char, v ∈ words_below t ↔ stored t v = true := by
  apply prefix_node.induct
  intro id is_leaf children ih ht v
  rw [all_nodes_iff] at ht
  rw [words_below_eq]
  simp only [prefix_node.is_leaf, prefix_node.children] at ht ⊢
  cases v with
  | nil =>
    have h1 : ([] : List Char) ∉ words_below_list children := by
      intro h
      rcases mem_words_below_list.mp h with ⟨c, _, s, _, e⟩
      cases e
    cases is_leaf <;> simp [stored, prefix_node.is_leaf, h1]
  | cons d v1 =>
    have h0 : (d :: v1) ∉ (if is_leaf = true then [([] : List Char)] else []) := by
      cases is_leaf <;> simp
    simp only [List.mem_append, h0, false_or, stored]
    rw [mem_words_below_list]
    constructor
    · rintro ⟨c, hc, s, hs, e⟩
      have hd : d = c.id := (List.cons.inj e).1
      have hv : v1 = s := (List.cons.inj e).2
      have hf : child_lookup_by_id (.mk id is_leaf children) d = some c := by
        rw [hd]; exact find_of_nodup ht.1 hc
      rw [hf]
      simp only
      rw [hv]
      exact (ih c hc (ht.2 c hc) s).mp hs
    · intro h
      cases hf : child_lookup_by_id (.mk id is_leaf children) d with
      | none => rw [hf] at h; cases h
      | some c =>
        rw [hf] at h
        have hc := child_lookup_some hf
        simp only [prefix_node.children] at hc
        exact ⟨c, hc.1, v1, (ih c hc.1 (ht.2 c hc.1) v1).mpr h, by rw [hc.2]⟩

theorem words_below_list_nodup {cs : List prefix_node}
    (hn : (cs.map prefix_node.id).Nodup) (h : ∀ c ∈ cs, (words_below c).Nodup) :
    (words_below_list cs).Nodup := by
  induction cs with
  | nil => simp [words_below_list]
  | cons head tail ih =>
    rw [List.map_cons, List.nodup_cons] at hn
    simp only [words_below_list]
    rw [List.nodup_append]
    refine ⟨?_, ih hn.2 (fun c hc => h c (List.mem_cons_of_mem _ hc)), ?_⟩
    · exact (h head (List.mem_cons_self _ _)).map (fun a b e => (List.cons.inj e).2)
    · intro v hv1 hv2
      rcases List.mem_map.mp hv1 with ⟨s, _, rfl⟩
      rcases mem_words_below_list.mp hv2 with ⟨c, hc, s2, _, e⟩
      exact hn.1 ((List.cons.inj e).1 ▸ List.mem_map_of_mem _ hc)

/-- With unique child ids, the enumeration below a node lists no path twice. -/
theorem words_below_nodup :
    ∀ t : prefix_node, all_nodes uniq_node t → (words_below t).Nodup := by
  apply prefix_node.induct
  intro id is_leaf children ih ht
  rw [all_nodes_iff] at ht
  rw [words_below_eq]
  simp only [prefix_node.is_leaf, prefix_node.children] at ht ⊢
  rw [List.nodup_append]
  refine ⟨by cases is_leaf <;> simp, ?_, ?_⟩
  · exact words_below_list_nodup ht.1 (fun c hc => ih c hc (ht.2 c hc))
  · intro v hv1 hv2
    rcases mem_words_below_list.mp hv2 with ⟨c, _, s, _, e⟩
    cases is_leaf
    · simp at hv1
    · simp at hv1
      rw [hv1] at e
      cases e

/-! ## Walking a path -/

theorem stored_append (p : List Char) :
    ∀ (t : prefix_node) (s : List Char),
      stored t (p ++ s) = match walk t p with
        | none => false
        | some m => stored m s := by
  induction p with
  | nil => intro t s; simp [walk]
  | cons c rest ih =>
    intro t s
    simp only [List.cons_append, stored, walk]
    cases child_lookup_by_id t c with
    | none => rfl
    | some child => exact ih child s

theorem walk_all_nodes {q : prefix_node → Prop} (p : List Char) :
    ∀ (t m : prefix_node), all_nodes q t → walk t p = some m → all_nodes q m := by
  induction p with
  | nil =>
    intro t m ht h
    simp only [walk, Option.some.injEq] at h
    exact h ▸ ht
  | cons c rest ih =>
    intro t m ht h
    simp only [walk] at h
    cases hf : child_lookup_by_id t c with
    | none => rw [hf] at h; cases h
    | some child =>
      rw [hf] at h
      exact ih child m (((all_nodes_iff q t).mp ht).2 child (child_lookup_some hf).1) h

theorem walk_height (p : List Char) :
    ∀ (t m : prefix_node), walk t p = some m → p.length + height m ≤ height t := by
  induction p with
  | nil =>
    intro t m h
    simp only [walk, Option.some.injEq] at h
    simp [h]
  | cons c rest ih =>
    intro t m h
    simp only [walk] at h
    cases hf : child_lookup_by_id t c with
    | none => rw [hf] at h; cases h
    | some child =>
      rw [hf] at h
      have h1 := ih child m h
      have h2 := height_list_mem (child_lookup_some hf).1
      rw [← height_eq] at h2
      simp only [List.length_cons]
      omega

theorem walk_nul_free (p : List Char) :
    ∀ (t m : prefix_node), all_nodes nul_free_node t → walk t p = some m → NUL ∉ p := by
  induction p with
  | nil => intro t m _ _; exact List.not_mem_nil _
  | cons c rest ih =>
    intro t m ht h
    simp only [walk] at h
    cases hf : child_lookup_by_id t c with
    | none => rw [hf] at h; cases h
    | some child =>
      rw [hf] at h
      have hc := child_lookup_some hf
      have ht2 := (all_nodes_iff _ t).mp ht
      intro hmem
      rcases List.mem_cons.mp hmem with e | e
      · apply ht2.1
        rw [e, ← hc.2]
        exact List.mem_map_of_mem _ hc.1
      · exact ih child m (ht2.2 child hc.1) h e

/-! ## The scratch buffer -/

theorem set_at_length {α : Type} (l1 : List α) (a b : α) (l2 : List α) :
    (l1 ++ a :: l2).set l1.length b = l1 ++ b :: l2 := by
  induction l1 with
  | nil => rfl
  | cons head tail ih => simp [List.set, ih]

theorem buffer_write_at (pre : List Char) (x : Option Char) (junk : List (Option Char))
    (ch : Char) :
    buffer_write (pre.map some ++ x :: junk) pre.length ch =
      some (pre.map some ++ some ch :: junk) := by
  unfold buffer_write
  have h : pre.length < (pre.map some ++ x :: junk).length := by simp
  rw [if_pos h]
  have := set_at_length (pre.map some) x (some ch) junk
  rw [List.length_map] at this
  rw [this]

theorem map_some_snoc (pre : List Char) (ch : Char) (rest : List (Option Char)) :
    pre.map some ++ some ch :: rest = (pre ++ [ch]).map some ++ rest := by
  simp

theorem c_str_terminated (pre : List Char) (junk : List (Option Char)) (h : NUL ∉ pre) :
    c_str (pre.map some ++ some NUL :: junk) = some pre := by
  induction pre with
  | nil => simp [c_str]
  | cons c rest ih =>
    have hc : c ≠ NUL := fun e => h (e ▸ List.mem_cons_self _ _)
    have hr : NUL ∉ rest := fun e => h (List.mem_cons_of_mem _ e)
    simp [c_str, hc, ih hr]

theorem c_str_indeterminate (pre : List Char) (junk : List (Option Char)) (h : NUL ∉ pre) :
    c_str (pre.map some ++ none :: junk) = none := by
  induction pre with
  | nil => simp [c_str]
  | cons c rest ih =>
    have hc : c ≠ NUL := fun e => h (e ▸ List.mem_cons_self _ _)
    have hr : NUL ∉ rest := fun e => h (List.mem_cons_of_mem _ e)
    simp [c_str, hc, ih hr]

/-- Appending to a buffer that holds `pre` and has two more bytes: the buffer
then holds `pre ++ [ch]` and its terminator. -/
theorem append_char_spec (pre : List Char) (x y : Option Char) (junk : List (Option Char))
    (ch : Char) :
    append_char_to_word_buffer ⟨pre.map some ++ x :: y :: junk, pre.length⟩ ch =
      some ⟨(pre ++ [ch]).map some ++ some NUL :: junk, pre.length + 1⟩ := by
  unfold append_char_to_word_buffer
  simp only
  rw [buffer_write_at, map_some_snoc]
  have h := buffer_write_at (pre ++ [ch]) y junk NUL
  rw [List.length_append, List.length_singleton] at h
  simp only
  rw [h]

/-- Removing the last character of a buffer that holds `pre ++ [ch]`. -/
theorem remove_char_spec (pre : List Char) (ch : Char) (rest : List (Option Char)) :
    remove_char_from_word_buffer ⟨(pre ++ [ch]).map some ++ rest, pre.length + 1⟩ =
      some ⟨pre.map some ++ some NUL :: rest, pre.length⟩ := by
  unfold remove_char_from_word_buffer
  simp only [Nat.add_sub_cancel, Nat.succ_ne_zero, if_false]
  rw [← map_some_snoc, buffer_write_at]

theorem calls_for_append (cb_ctx : Nat) (pre : List Char) (a b : List (List Char)) :
    calls_for cb_ctx pre (a ++ b) = calls_for cb_ctx pre a ++ calls_for cb_ctx pre b := by
  simp [calls_for]

theorem calls_for_cons (cb_ctx : Nat) (pre : List Char) (c : Char) (ws : List (List Char)) :
    calls_for cb_ctx (pre ++ [c]) ws = calls_for cb_ctx pre (ws.map (c :: ·)) := by
  simp [calls_for]

theorem iterate_children_spec (cb_ctx : Nat) (cs : List prefix_node) :
    (∀ c ∈ cs, leaves_spec cb_ctx c) → NUL ∉ cs.map prefix_node.id →
    ∀ (pre : List Char) (x : Option Char) (junk : List (Option Char)),
      NUL ∉ pre → height_list cs ≤ junk.length →
      ∃ (x1 : Option Char) (junk1 : List (Option Char)), junk1.length = junk.length ∧
        iterate_children cb_ctx ⟨pre.map some ++ x :: junk, pre.length⟩ cs =
          some (⟨pre.map some ++ x1 :: junk1, pre.length⟩,
            calls_for cb_ctx pre (words_below_list cs)) := by
  induction cs with
  | nil =>
    intro _ _ pre x junk _ _
    exact ⟨x, junk, rfl, by simp [iterate_children, words_below_list, calls_for]⟩
  | cons child rest ih =>
    intro hspec hnul pre x junk hpre hcap
    have hid : child.id ≠ NUL := fun e => hnul (by simp [e])
    have hnul2 : NUL ∉ rest.map prefix_node.id := fun e => hnul (by simp at e ⊢; exact Or.inr e)
    simp only [height_list] at hcap
    cases junk with
    | nil => simp at hcap
    | cons y junk0 =>
      simp only [List.length_cons] at hcap
      have hpre1 : NUL ∉ pre ++ [child.id] := by
        intro e
        rcases List.mem_append.mp e with e | e
        · exact hpre e
        · exact hid (List.mem_singleton.mp e).symm
      have hc0 : height child ≤ junk0.length := by omega
      rcases hspec child (List.mem_cons_self _ _) (pre ++ [child.id]) (some NUL) junk0 hpre1 hc0
        with ⟨x1, junk1, hlen1, h1⟩
      rw [List.length_append, List.length_singleton] at h1
      have hc1 : height_list rest ≤ (x1 :: junk1).length := by
        simp only [List.length_cons]; omega
      rcases ih (fun c hc => hspec c (List.mem_cons_of_mem _ hc)) hnul2 pre (some NUL)
        (x1 :: junk1) hpre hc1 with ⟨x2, junk2, hlen2, h2⟩
      refine ⟨x2, junk2, by simp only [List.length_cons] at hlen2 ⊢; omega, ?_⟩
      rw [iterate_children, append_char_spec]
      simp only
      rw [h1]
      simp only
      rw [remove_char_spec]
      simp only
      rw [h2]
      simp only [words_below_list, calls_for_append]
      rw [c_str_terminated _ _ hpre1, ← calls_for_cons]
      have hw : words_below child =
          (if child.is_leaf then [[]] else []) ++ words_below_list child.children :=
        words_below_eq child
      rw [hw, calls_for_append]
      cases child.is_leaf <;> simp [calls_for]

/-- The traversal below any node whose ids are free of `NUL` meets
`leaves_spec`. -/
theorem iterate_leaves_spec (cb_ctx : Nat) :
    ∀ t : prefix_node, all_nodes nul_free_node t → leaves_spec cb_ctx t := by
  apply prefix_node.induct
  intro id is_leaf children ih ht
  rw [all_nodes_iff] at ht
  intro pre x junk hpre hcap
  rw [height_eq] at hcap
  simp only [prefix_node.children] at ht hcap
  rcases iterate_children_spec cb_ctx children (fun c hc => ih c hc (ht.2 c hc))
    (by simpa [nul_free_node, child_ids, prefix_node.children] using ht.1)
    pre x junk hpre hcap with ⟨x1, junk1, hlen, h⟩
  refine ⟨x1, junk1, hlen, ?_⟩
  rw [iterate_leaves]
  simp only
  rw [h]
  simp [prefix_node.is_leaf, prefix_node.children]

/-! ## Prefix resolution and the whole lookup -/

/-- The loop of `find_node_matching_prefix` returns the node that `walk`
reaches, without leaving the buffer; when it reaches a node, the buffer holds
the path walked, followed by its terminator if the path is not empty. -/
theorem find_node_loop_spec (p : List Char) :
    ∀ (node : prefix_node) (pre : List Char) (x : Option Char) (junk : List (Option Char)),
      height node ≤ junk.length →
      (walk node p = none ∧ ∃ word,
        find_node_loop node ⟨pre.map some ++ x :: junk, pre.length⟩ p = some (none, word)) ∨
      (∃ (m : prefix_node) (x1 : Option Char) (junk1 : List (Option Char)),
        walk node p = some m ∧ junk1.length + p.length = junk.length ∧
        (p = [] → x1 = x) ∧ (p ≠ [] → x1 = some NUL) ∧
        find_node_loop node ⟨pre.map some ++ x :: junk, pre.length⟩ p =
          some (some m, ⟨(pre ++ p).map some ++ x1 :: junk1, (pre ++ p).length⟩)) := by
  induction p with
  | nil =>
    intro node pre x junk _
    exact Or.inr ⟨node, x, junk, rfl, rfl, fun _ => rfl, fun h => absurd rfl h,
      by simp [find_node_loop]⟩
  | cons c rest ih =>
    intro node pre x junk hcap
    cases hf : child_lookup_by_id node c with
    | none =>
      exact Or.inl ⟨by simp [walk, hf], ⟨pre.map some ++ x :: junk, pre.length⟩,
        by simp [find_node_loop, hf]⟩
    | some child =>
      have hc := child_lookup_some hf
      have hh := height_list_mem hc.1
      rw [← height_eq] at hh
      cases junk with
      | nil => simp only [List.length_nil] at hcap; omega
      | cons y junk0 =>
        simp only [List.length_cons] at hcap
        have hstep : find_node_loop node ⟨pre.map some ++ x :: y :: junk0, pre.length⟩
            (c :: rest) =
            find_node_loop child
              ⟨(pre ++ [c]).map some ++ some NUL :: junk0, (pre ++ [c]).length⟩ rest := by
          rw [find_node_loop, hf]
          simp only
          rw [hc.2, append_char_spec]
          simp
        have hwalk : walk node (c :: rest) = walk child rest := by simp [walk, hf]
        rcases ih child (pre ++ [c]) (some NUL) junk0 (by omega) with
          ⟨hw, word, hfind⟩ | ⟨m, x1, junk1, hw, hlen, h1, h2, hfind⟩
        · exact Or.inl ⟨by rw [hwalk, hw], word, by rw [hstep, hfind]⟩
        · refine Or.inr ⟨m, x1, junk1, by rw [hwalk, hw], ?_, ?_, ?_, ?_⟩
          · simp only [List.length_cons]; omega
          · intro e; cases e
          · intro _
            by_cases hr : rest = []
            · exact h1 hr
            · exact h2 hr
          · rw [hstep, hfind]
            simp

/-- On a tree whose ids are free of `NUL` and whose paths are no longer than
`depth`, `prefix_tree_lookup` stays in its buffer and makes the calls of
`lookup_words`. -/
theorem prefix_tree_lookup_eq (t : prefix_tree) (hn : all_nodes nul_free_node t.root)
    (hd : height t.root ≤ t.depth) (pfx : List Char) (cb_ctx : Nat) :
    prefix_tree_lookup true (some t) pfx true cb_ctx =
      some ((lookup_words t pfx).map (fun w => cb_call.mk w cb_ctx)) := by
  have hbuf : (List.replicate (t.depth + 1) none : List (Option Char)) =
      ([] : List Char).map some ++ none :: List.replicate t.depth none := by
    simp [List.replicate_succ]
  have hcap : height t.root ≤ (List.replicate t.depth (none : Option Char)).length := by
    simpa using hd
  unfold prefix_tree_lookup find_node_matching_prefix lookup_words
  simp only [Bool.true_eq_false, if_false]
  rw [hbuf]
  rcases find_node_loop_spec pfx t.root [] none (List.replicate t.depth none) hcap with
    ⟨hw, word, hfind⟩ | ⟨m, x1, junk1, hw, hlen, h1, h2, hfind⟩
  · simp only [List.length_nil] at hfind
    rw [hfind, hw]
    simp
  · simp only [List.length_nil, List.nil_append] at hfind
    rw [hfind, hw]
    simp only
    have hm : all_nodes nul_free_node m := walk_all_nodes pfx t.root m hn hw
    have hp : NUL ∉ pfx := walk_nul_free pfx t.root m hn hw
    have hh := walk_height pfx t.root m hw
    have hcap1 : height m ≤ junk1.length := by
      simp only [List.length_replicate] at hlen; omega
    rcases iterate_leaves_spec cb_ctx m hm pfx x1 junk1 hp hcap1 with ⟨x2, junk2, _, hit⟩
    rw [hit]
    simp only [Option.some.injEq, List.map_append, calls_for, List.map_map]
    congr 1
    · cases m.is_leaf
      · simp
      · by_cases he : pfx = []
        · simp [he, h1 he, c_str]
        · simp [he, h2 he, c_str_terminated pfx junk1 hp]

/-! ## Sequences of insertions -/

theorem prefix_tree_insert_word_eq (calloc : Nat → Bool) (n : Nat) (t : prefix_tree)
    (w : List Char) :
    prefix_tree_insert_word calloc n (some t) w =
      (( insert_prefix calloc n t.root w).1,
       some ⟨max t.depth w.length, ( insert_prefix calloc n t.root w).2.1⟩,
       ( insert_prefix calloc n t.root w).2.2) := by
  unfold prefix_tree_insert_word
  by_cases h : w.length > t.depth
  · simp [h, max_eq_right (le_of_lt h)]
  · simp [h, max_eq_left (not_lt.mp h)]

theorem insert_words_cons (calloc : Nat → Bool) (n : Nat) (tree : Option prefix_tree)
    (w : List Char) (ws : List (List Char)) :
    insert_words calloc n tree (w :: ws) =
      ((prefix_tree_insert_word calloc n tree w).1 ::
        (insert_words calloc (prefix_tree_insert_word calloc n tree w).2.2
          (prefix_tree_insert_word calloc n tree w).2.1 ws).1,
       (insert_words calloc (prefix_tree_insert_word calloc n tree w).2.2
          (prefix_tree_insert_word calloc n tree w).2.1 ws).2.1,
       (insert_words calloc (prefix_tree_insert_word calloc n tree w).2.2
          (prefix_tree_insert_word calloc n tree w).2.1 ws).2.2) := by
  simp [insert_words]

theorem inserted_words_cons (w : List Char) (ws : List (List Char)) (r : Bool)
    (rets : List Bool) :
    inserted_words (w :: ws) (r :: rets) =
      if r then w :: inserted_words ws rets else inserted_words ws rets := by
  cases r <;> simp [inserted_words]

theorem inserted_words_subset (ws : List (List Char)) :
    ∀ (rets : List Bool) (v : List Char), v ∈ inserted_words ws rets → v ∈ ws := by
  induction ws with
  | nil => intro rets v h; simp [inserted_words] at h
  | cons w ws ih =>
    intro rets v h
    cases rets with
    | nil => simp [inserted_words] at h
    | cons r rets =>
      rw [inserted_words_cons] at h
      cases r
      · exact List.mem_cons_of_mem _ (ih rets v h)
      · rcases List.mem_cons.mp h with h | h
        · exact h ▸ List.mem_cons_self _ _
        · exact List.mem_cons_of_mem _ (ih rets v h)

theorem good_insert_word (calloc : Nat → Bool) (n : Nat) (t : prefix_tree) (w : List Char)
    (hw : NUL ∉ w) (ht : good t) :
    good ⟨max t.depth w.length, ( insert_prefix calloc n t.root w).2.1⟩ := by
  refine ⟨insert_prefix_uniq calloc w n t.root ht.1,
    insert_prefix_nul_free calloc w hw n t.root ht.2.1, ?_⟩
  have h1 := insert_prefix_height calloc w n t.root
  have h2 := ht.2.2
  simp only
  omega

/-- What a sequence of insertions on a tree leaves: a tree, whose depth is the
greatest of the old depth and the lengths of the words, whose marked paths are
the old ones and the words whose insertion returned `true`, and which is still
`good` if the words hold no `NUL`. -/
theorem insert_words_spec (calloc : Nat → Bool) (ws : List (List Char)) :
    ∀ (n : Nat) (t : prefix_tree),
      ∃ t1 : prefix_tree, (insert_words calloc n (some t) ws).2.1 = some t1 ∧
        t1.depth = max t.depth (max_len ws) ∧
        (insert_words calloc n (some t) ws).1.length = ws.length ∧
        (∀ v, stored t1.root v =
          (stored t.root v ||
            decide (v ∈ inserted_words ws (insert_words calloc n (some t) ws).1))) ∧
        (all_nodes uniq_node t.root → all_nodes uniq_node t1.root) ∧
        ((∀ w ∈ ws, NUL ∉ w) → good t → good t1) := by
  induction ws with
  | nil =>
    intro n t
    exact ⟨t, rfl, by simp [max_len], rfl, by simp [insert_words, inserted_words],
      fun h => h, fun _ h => h⟩
  | cons w ws ih =>
    intro n t
    rw [insert_words_cons, prefix_tree_insert_word_eq]
    simp only
    rcases ih ( insert_prefix calloc n t.root w).2.2
      ⟨max t.depth w.length, ( insert_prefix calloc n t.root w).2.1⟩ with
      ⟨t1, h1, h2, h3, h4, h5, h6⟩
    refine ⟨t1, h1, ?_, ?_, ?_, ?_, ?_⟩
    · rw [h2]; simp only [max_len]; omega
    · simp [h3]
    · intro v
      rw [h4 v, inserted_words_cons]
      simp only
      rw [stored_after_insert]
      cases ( insert_prefix calloc n t.root w).1
      · simp
      · simp only [Bool.true_and, if_true, List.mem_cons, Bool.or_assoc]
        congr 1
        by_cases hv : v = w <;> simp [hv]
    · intro hu
      exact h5 (insert_prefix_uniq calloc w n t.root hu)
    · intro hws hg
      exact h6 (fun x hx => hws x (List.mem_cons_of_mem _ hx))
        (good_insert_word calloc n t w (hws w (List.mem_cons_self _ _)) hg)

/-- When every allocation succeeds, every insertion returns `true` and the
tree keeps a marked node below every child. -/
theorem insert_words_all_ok (ws : List (List Char)) :
    ∀ (n : Nat) (t : prefix_tree),
      inserted_words ws (insert_words (fun _ => true) n (some t) ws).1 = ws ∧
      (∀ t1, (insert_words (fun _ => true) n (some t) ws).2.1 = some t1 →
        all_nodes live_node t.root → all_nodes live_node t1.root) := by
  induction ws with
  | nil =>
    intro n t
    refine ⟨by simp [insert_words, inserted_words], ?_⟩
    intro t1 h hl
    simp only [insert_words, Option.some.injEq] at h
    exact h ▸ hl
  | cons w ws ih =>
    intro n t
    have hok : ( insert_prefix (fun _ => true) n t.root w).1 = true := by
      cases h : ( insert_prefix (fun _ => true) n t.root w).1 with
      | true => rfl
      | false =>
        rcases (insert_prefix_false_iff (fun _ => true) w n t.root).mp h with ⟨k, _, _, hk⟩
        cases hk
    rw [insert_words_cons, prefix_tree_insert_word_eq]
    simp only
    rcases ih ( insert_prefix (fun _ => true) n t.root w).2.2
      ⟨max t.depth w.length, ( insert_prefix (fun _ => true) n t.root w).2.1⟩ with ⟨h1, h2⟩
    constructor
    · rw [inserted_words_cons, hok, h1]; rfl
    · intro t1 ht1 hl
      exact h2 t1 ht1 ((insert_prefix_live (fun _ => true) w n t.root hok).2 hl)

theorem good_create : good ⟨0, .mk NUL false []⟩ := by
  refine ⟨?_, ?_, ?_⟩
  · rw [all_nodes_iff]
    exact ⟨by simp [uniq_node, child_ids, prefix_node.children],
      by intro c hc; simp [prefix_node.children] at hc⟩
  · rw [all_nodes_iff]
    exact ⟨by simp [nul_free_node, child_ids, prefix_node.children],
      by intro c hc; simp [prefix_node.children] at hc⟩
  · simp [height, height_list]

theorem run_eq_of_create (calloc : Nat → Bool) (h0 : calloc 0 = true) (h1 : calloc 1 = true)
    (ws : List (List Char)) :
    run calloc ws = insert_words calloc 2 (some ⟨0, .mk NUL false []⟩) ws := by
  simp [run, prefix_tree_create, node_alloc, h0, h1]

/-- The tree of a run without allocation failure: it exists, is `good` when the
words hold no `NUL`, its depth is the greatest word length, its marked paths
are the words inserted, and every child has a marked node below it. -/
theorem tree_of_spec (ws : List (List Char)) :
    ∃ t : prefix_tree, tree_of ws = some t ∧ t.depth = max_len ws ∧
      (∀ v, stored t.root v = true ↔ v ∈ ws) ∧ all_nodes uniq_node t.root ∧
      all_nodes live_node t.root ∧ ((∀ w ∈ ws, NUL ∉ w) → good t) := by
  unfold tree_of
  rw [run_eq_of_create (fun _ => true) rfl rfl]
  rcases insert_words_spec (fun _ => true) ws 2 ⟨0, .mk NUL false []⟩ with
    ⟨t1, h1, h2, _, h4, h5, h6⟩
  rcases insert_words_all_ok ws 2 ⟨0, .mk NUL false []⟩ with ⟨h7, h8⟩
  refine ⟨t1, h1, by simpa using h2, ?_, h5 good_create.1, ?_, fun hw => h6 hw good_create⟩
  · intro v
    rw [h4 v, h7]
    simp [stored_fresh]
  · apply h8 t1 h1
    rw [all_nodes_iff]
    exact ⟨by intro c hc; simp [prefix_node.children] at hc,
      by intro c hc; simp [prefix_node.children] at hc⟩

theorem walk_live (p : List Char) :
    ∀ (t m : prefix_node) (c : Char), all_nodes live_node t → walk t (c :: p) = some m →
      words_below m ≠ [] := by
  induction p with
  | nil =>
    intro t m c ht h
    simp only [walk] at h
    cases hf : child_lookup_by_id t c with
    | none => rw [hf] at h; cases h
    | some child =>
      rw [hf] at h
      simp only [Option.some.injEq] at h
      rw [← h]
      exact ((all_nodes_iff _ t).mp ht).1 child (child_lookup_some hf).1
  | cons d rest ih =>
    intro t m c ht h
    rw [walk] at h
    cases hf : child_lookup_by_id t c with
    | none => rw [hf] at h; cases h
    | some child =>
      rw [hf] at h
      exact ih child m d (((all_nodes_iff _ t).mp ht).2 child (child_lookup_some hf).1) h

/-! ## The words a lookup passes -/

theorem words_below_list_ne_nil_of_mem {cs : List prefix_node} {s : List Char}
    (h : s ∈ words_below_list cs) : s ≠ [] := by
  rcases mem_words_below_list.mp h with ⟨c, _, s1, _, e⟩
  rw [e]
  exact List.cons_ne_nil _ _

theorem mem_children_words_iff (m : prefix_node) (s : List Char) :
    s ∈ words_below_list m.children ↔ s ∈ words_below m ∧ s ≠ [] := by
  rw [words_below_eq]
  constructor
  · intro h
    exact ⟨List.mem_append_right _ h, words_below_list_ne_nil_of_mem h⟩
  · rintro ⟨h, hs⟩
    rcases List.mem_append.mp h with h | h
    · by_cases hl : m.is_leaf = true
      · rw [if_pos hl] at h; exact absurd (List.mem_singleton.mp h) hs
      · rw [if_neg hl] at h; cases h
    · exact h

theorem lookup_words_mem_some (t : prefix_tree) (hu : all_nodes uniq_node t.root)
    (pfx v : List Char) :
    some v ∈ lookup_words t pfx ↔ pfx <+: v ∧ v ≠ [] ∧ stored t.root v = true := by
  unfold lookup_words
  cases hw : walk t.root pfx with
  | none =>
    simp only [List.not_mem_nil, false_iff]
    rintro ⟨⟨s, rfl⟩, _, hs⟩
    rw [stored_append, hw] at hs
    cases hs
  | some m =>
    have hm : all_nodes uniq_node m := walk_all_nodes pfx t.root m hu hw
    simp only [List.mem_append, List.mem_map]
    constructor
    · rintro (h | ⟨s, hs, e⟩)
      · cases hl : m.is_leaf with
        | false => rw [hl] at h; simp at h
        | true =>
          rw [hl] at h
          by_cases hp : pfx = []
          · simp [hp] at h
          · simp only [if_true, if_neg hp, List.mem_singleton, Option.some.injEq] at h
            subst h
            refine ⟨List.prefix_refl _, hp, ?_⟩
            have := stored_append v t.root []
            rw [List.append_nil, hw] at this
            rw [this]
            exact hl
      · have hv : v = pfx ++ s := (Option.some.inj e).symm
        have h1 := (mem_children_words_iff m s).mp hs
        refine ⟨⟨s, hv.symm⟩, ?_, ?_⟩
        · rw [hv]
          intro e1
          exact h1.2 (List.append_eq_nil.mp e1).2
        · rw [hv, stored_append, hw]
          exact (mem_words_below_iff m hm s).mp h1.1
    · rintro ⟨⟨s, rfl⟩, hne, hs⟩
      rw [stored_append, hw] at hs
      simp only at hs
      by_cases he : s = []
      · subst he
        left
        simp only [stored] at hs
        rw [List.append_nil] at hne ⊢
        simp [hs, hne]
      · right
        exact ⟨s, (mem_children_words_iff m s).mpr ⟨(mem_words_below_iff m hm s).mpr hs, he⟩, rfl⟩

theorem lookup_words_mem_none (t : prefix_tree) (pfx : List Char) :
    none ∈ lookup_words t pfx ↔ pfx = [] ∧ t.root.is_leaf = true := by
  unfold lookup_words
  cases hw : walk t.root pfx with
  | none =>
    simp only [List.not_mem_nil, false_iff]
    rintro ⟨rfl, _⟩
    simp [walk] at hw
  | some m =>
    by_cases hp : pfx = []
    · subst hp
      simp only [walk, Option.some.injEq] at hw
      subst hw
      cases hl : t.root.is_leaf <;> simp [hl]
    · cases hl : m.is_leaf <;> simp [hp]

theorem lookup_words_nodup (t : prefix_tree) (hu : all_nodes uniq_node t.root)
    (pfx : List Char) : (lookup_words t pfx).Nodup := by
  unfold lookup_words
  cases hw : walk t.root pfx with
  | none => exact List.nodup_nil
  | some m =>
    have hm : all_nodes uniq_node m := walk_all_nodes pfx t.root m hu hw
    have hn := words_below_nodup m hm
    rw [words_below_eq] at hn
    simp only
    rw [List.nodup_append]
    refine ⟨by cases m.is_leaf <;> simp, ?_, ?_⟩
    · apply (List.Nodup.of_append_right hn).map
      intro a b e
      exact List.append_cancel_left (Option.some.inj e)
    · intro w h1 h2
      rcases List.mem_map.mp h2 with ⟨s, hs, e⟩
      have hs0 := words_below_list_ne_nil_of_mem hs
      cases hl : m.is_leaf with
      | false => rw [hl] at h1; simp at h1
      | true =>
        rw [hl] at h1
        by_cases hp : pfx = []
        · simp [hp] at h1
          rw [h1] at e
          cases e
        · simp only [if_true, if_neg hp, List.mem_singleton] at h1
          rw [h1] at e
          have : pfx ++ s = pfx ++ [] := by rw [List.append_nil]; exact Option.some.inj e
          exact hs0 (List.append_cancel_left this)

theorem words_passed_lookup (t : prefix_tree) (hn : all_nodes nul_free_node t.root)
    (hd : height t.root ≤ t.depth) (pfx : List Char) (cb_ctx : Nat) :
    words_passed (prefix_tree_lookup true (some t) pfx true cb_ctx) = lookup_words t pfx := by
  rw [prefix_tree_lookup_eq t hn hd]
  simp [words_passed, Function.comp_def]

/-- The words a lookup passes after insertions that all succeeded: each one at
most once; a word `v` that is not empty is passed exactly when it was inserted
and starts with the prefix; an indeterminate word is passed exactly when the
prefix is empty and the empty word was inserted. -/
theorem words_passed_tree_of (ws : List (List Char)) (hws : ∀ w ∈ ws, NUL ∉ w)
    (pfx : List Char) (cb_ctx : Nat) :
    (words_passed (prefix_tree_lookup true (tree_of ws) pfx true cb_ctx)).Nodup ∧
    (∀ v, some v ∈ words_passed (prefix_tree_lookup true (tree_of ws) pfx true cb_ctx) ↔
      pfx <+: v ∧ v ≠ [] ∧ v ∈ ws) ∧
    (none ∈ words_passed (prefix_tree_lookup true (tree_of ws) pfx true cb_ctx) ↔
      pfx = [] ∧ [] ∈ ws) := by
  rcases tree_of_spec ws with ⟨t, ht, _, hst, hu, _, hg⟩
  have hgood := hg hws
  rw [ht, words_passed_lookup t hgood.2.1 hgood.2.2]
  refine ⟨lookup_words_nodup t hu pfx, ?_, ?_⟩
  · intro v
    rw [lookup_words_mem_some t hu, hst v]
  · rw [lookup_words_mem_none, ← hst []]
    simp [stored]

/-! ## Lookup after insertions that all succeed -/

theorem prefix_tree_lookup_off (malloc_ok cb : Bool) (tree : Option prefix_tree)
    (pfx : List Char) (cb_ctx : Nat) (h : malloc_ok = false ∨ cb = false) :
    prefix_tree_lookup malloc_ok tree pfx cb cb_ctx = some [] := by
  unfold prefix_tree_lookup
  cases tree with
  | none => rfl
  | some t => rcases h with h | h <;> simp [h]

/-- Away from the empty word, a lookup passes every inserted word that starts
with the prefix. -/
theorem lookup_passes_inserted (ws : List (List Char)) (hws : ∀ w ∈ ws, NUL ∉ w)
    (W pfx : List Char) (hW : W ∈ ws) (hp : pfx <+: W) (hne : W ≠ []) (cb_ctx : Nat) :
    some W ∈ words_passed (prefix_tree_lookup true (tree_of ws) pfx true cb_ctx) :=
  ((words_passed_tree_of ws hws pfx cb_ctx).2.1 W).mpr ⟨hp, hne, hW⟩

/-- When the empty word was not inserted, or the prefix is not empty, a lookup
passes only inserted words that start with the prefix, none of them twice. -/
theorem lookup_passes_only_inserted (ws : List (List Char)) (hws : ∀ w ∈ ws, NUL ∉ w)
    (pfx : List Char) (hne : pfx ≠ [] ∨ [] ∉ ws) (cb_ctx : Nat) :
    (∀ w ∈ words_passed (prefix_tree_lookup true (tree_of ws) pfx true cb_ctx),
      ∃ v, w = some v ∧ v ∈ ws ∧ pfx <+: v) ∧
    (words_passed (prefix_tree_lookup true (tree_of ws) pfx true cb_ctx)).Nodup := by
  rcases words_passed_tree_of ws hws pfx cb_ctx with ⟨h1, h2, h3⟩
  refine ⟨?_, h1⟩
  intro w hw
  cases w with
  | none =>
    have := h3.mp hw
    rcases hne with hne | hne
    · exact absurd this.1 hne
    · exact absurd this.2 hne
  | some v =>
    have := (h2 v).mp hw
    exact ⟨v, rfl, this.2.2, this.1⟩

/-- When the empty word was not inserted, the lookup of the empty prefix passes
each distinct inserted word once and nothing else. -/
theorem lookup_empty_prefix_perm (ws : List (List Char)) (hws : ∀ w ∈ ws, NUL ∉ w)
    (hne : [] ∉ ws) (cb_ctx : Nat) :
    (words_passed (prefix_tree_lookup true (tree_of ws) [] true cb_ctx)).Perm
      (ws.dedup.map some) := by
  rcases words_passed_tree_of ws hws [] cb_ctx with ⟨h1, h2, h3⟩
  rw [List.perm_ext_iff_of_nodup h1
    ((List.nodup_dedup ws).map (fun a b e => Option.some.inj e))]
  intro w
  cases w with
  | none =>
    constructor
    · intro hw; exact absurd (h3.mp hw).2 hne
    · intro hw; simp at hw
  | some v =>
    rw [h2 v]
    constructor
    · rintro ⟨_, _, hv⟩
      exact List.mem_map_of_mem _ (List.mem_dedup.mpr hv)
    · intro hv
      rcases List.mem_map.mp hv with ⟨u, hu, e⟩
      have hu2 : u ∈ ws := List.mem_dedup.mp hu
      have : u = v := Option.some.inj e
      subst this
      exact ⟨List.nil_prefix, fun e0 => hne (e0 ▸ hu2), hu2⟩

/-- C1 (round trip, prefix superset), at the input where the code departs from
it: after the empty word is inserted into a fresh tree, the lookup of the empty
prefix calls the callback once on a scratch buffer whose first byte was never
written, so the word passed is indeterminate and the inserted word is not
among the words passed. -/
theorem empty_word_round_trip_fails :
    ([] : List Char) ∈ [([] : List Char)] ∧ ([] : List Char) <+: [] ∧
    prefix_tree_lookup true (tree_of [[]]) [] true 0 = some [⟨none, 0⟩] ∧
    some [] ∉ words_passed (prefix_tree_lookup true (tree_of [[]]) [] true 0) := by
  decide

/-- C2 (only stored words with the prefix, once each), at the input where the
code departs from it: after the empty word is inserted, the lookup of the empty
prefix passes a word that is none of the inserted words. -/
theorem empty_word_lookup_passes_unstored :
    ∃ w ∈ words_passed (prefix_tree_lookup true (tree_of [[]]) [] true 0),
      ∀ v ∈ [([] : List Char)], w ≠ some v :=
  ⟨none, by decide, by decide⟩

/-- C4 (empty-prefix enumeration), at the input where the code departs from
it: after the empty word is inserted, the words passed for the empty prefix
are not a permutation of the distinct inserted words, because the one word
passed is read from a buffer that was never written. -/
theorem empty_word_enumeration_fails :
    ¬ (words_passed (prefix_tree_lookup true (tree_of [[]]) [] true 0)).Perm
      (([[]] : List (List Char)).dedup.map some) := by
  intro h
  have h1 : none ∈ words_passed (prefix_tree_lookup true (tree_of [[]]) [] true 0) := by
    decide
  have h2 := h.subset h1
  simp at h2

/-! ## Re-insertion, depth, allocation failure -/

theorem child_store_in_self {t x : prefix_node} {c : Char}
    (h : child_lookup_by_id t c = some x) : child_store_in t c x = t := by
  unfold child_store_in
  rw [child_store_self h]
  exact prefix_node.eta t

/-- Inserting a path that is already marked allocates nothing, returns `true`
and leaves the node as it was. -/
theorem insert_prefix_stored (calloc : Nat → Bool) (w : List Char) :
    ∀ (n : Nat) (t : prefix_node), stored t w = true →
      insert_prefix calloc n t w = (true, t, n) := by
  induction w with
  | nil =>
    intro n t h
    simp only [stored] at h
    rw [insert_prefix_nil, ← h, prefix_node.eta]
  | cons c rest ih =>
    intro n t h
    simp only [stored] at h
    cases hf : child_lookup_by_id t c with
    | none => rw [hf] at h; cases h
    | some child =>
      rw [hf] at h
      rw [insert_prefix_found calloc n rest hf, ih n child h]
      simp only
      rw [child_store_in_self hf]

theorem max_len_mem {ws : List (List Char)} {w : List Char} (h : w ∈ ws) :
    w.length ≤ max_len ws := by
  induction ws with
  | nil => cases h
  | cons head tail ih =>
    simp only [max_len]
    rcases List.mem_cons.mp h with h | h
    · rw [h]; exact le_max_left _ _
    · exact le_trans (ih h) (le_max_right _ _)

theorem insert_words_null (calloc : Nat → Bool) (ws : List (List Char)) :
    ∀ n, (insert_words calloc n none ws).2.1 = none := by
  induction ws with
  | nil => intro n; rfl
  | cons w ws ih => intro n; rw [insert_words_cons]; exact ih n

theorem run_tree_some (calloc : Nat → Bool) (ws : List (List Char)) (t : prefix_tree)
    (h : (run calloc ws).2.1 = some t) :
    run calloc ws = insert_words calloc 2 (some ⟨0, .mk NUL false []⟩) ws := by
  cases h0 : calloc 0 with
  | true =>
    cases h1 : calloc 1 with
    | true => exact run_eq_of_create calloc h0 h1 ws
    | false =>
      exfalso
      simp [run, prefix_tree_create, node_alloc, h0, h1, insert_words_null] at h
  | false =>
    exfalso
    simp [run, prefix_tree_create, h0, insert_words_null] at h

/-- The tree of a run, whatever allocations failed after the tree was created:
its depth is the greatest word length, its marked paths are the words whose
insertion returned `true`, child ids are unique, and it is `good` when the
words hold no `NUL`. -/
theorem run_spec (calloc : Nat → Bool) (ws : List (List Char)) (t : prefix_tree)
    (h : (run calloc ws).2.1 = some t) :
    t.depth = max_len ws ∧
    (∀ v, stored t.root v = true ↔ v ∈ inserted_words ws (run calloc ws).1) ∧
    all_nodes uniq_node t.root ∧ ((∀ w ∈ ws, NUL ∉ w) → good t) := by
  have hrun := run_tree_some calloc ws t h
  rw [hrun] at h ⊢
  rcases insert_words_spec calloc ws 2 ⟨0, .mk NUL false []⟩ with ⟨t1, h1, h2, _, h4, h5, h6⟩
  rw [h1] at h
  have ht : t1 = t := Option.some.inj h
  subst ht
  refine ⟨by simpa using h2, ?_, h5 good_create.1, fun hw => h6 hw good_create⟩
  intro v
  rw [h4 v]
  simp [stored_fresh]

/-- In the tree of any run, whatever allocations failed, for a word whose
insertion returned `true`, a further `prefix_tree_insert_word` with that word
returns `true`, under any outcome of the allocations, makes no allocation, and
leaves the tree as it was (nodes, child order, leaf flags and depth). -/
theorem reinsert_returns_same_tree (calloc : Nat → Bool) (ws : List (List Char))
    (t : prefix_tree) (W : List Char) (ht : (run calloc ws).2.1 = some t)
    (hW : W ∈ inserted_words ws (run calloc ws).1) (calloc1 : Nat → Bool) (n : Nat) :
    prefix_tree_insert_word calloc1 n (some t) W = (true, some t, n) := by
  rcases run_spec calloc ws t ht with ⟨hd, hst, _, _⟩
  have hs : stored t.root W = true := (hst W).mpr hW
  have hlen : W.length ≤ t.depth := by
    rw [hd]; exact max_len_mem (inserted_words_subset ws _ W hW)
  rw [prefix_tree_insert_word_eq, insert_prefix_stored calloc1 W n t.root hs]
  simp only [max_eq_left hlen]

/-- C6 (depth): a tree just created has depth 0; after any sequence of calls
to `prefix_tree_insert_word`, whether they returned `true` or `false`, the
depth is the greatest length of the words passed (0 if none); and one more
call never lowers it. -/
theorem depth_is_max_word_length (calloc : Nat → Bool) (ws : List (List Char))
    (t : prefix_tree) (ht : (run calloc ws).2.1 = some t) :
    (∀ t0, (prefix_tree_create calloc 0).1 = some t0 → t0.depth = 0) ∧
    t.depth = max_len ws ∧
    ∀ (calloc1 : Nat → Bool) (n : Nat) (w : List Char),
      ∃ t1, (prefix_tree_insert_word calloc1 n (some t) w).2.1 = some t1 ∧
        t1.depth = max t.depth w.length ∧ t.depth ≤ t1.depth := by
  refine ⟨?_, (run_spec calloc ws t ht).1, ?_⟩
  · intro t0 h0
    unfold prefix_tree_create node_alloc at h0
    cases hc0 : calloc 0 with
    | false => simp [hc0] at h0
    | true =>
      cases hc1 : calloc (0 + 1) with
      | false => simp [hc0, hc1] at h0
      | true =>
        simp [hc0, hc1] at h0
        rw [← h0]
  · intro calloc1 n w
    rw [prefix_tree_insert_word_eq]
    exact ⟨_, rfl, rfl, le_max_left _ _⟩

/-- C6 at a concrete input: the four words of `main`, the longest of length
7. -/
theorem depth_is_max_word_length_witness :
    ∃ t, (run (fun _ => true)
        ["apple".toList, "ap".toList, "avocado".toList, "banana".toList]).2.1 = some t ∧
      t.depth = 7 := by
  rcases tree_of_spec ["apple".toList, "ap".toList, "avocado".toList, "banana".toList] with
    ⟨t, ht, _⟩
  exact ⟨t, ht, (depth_is_max_word_length (fun _ => true)
    ["apple".toList, "ap".toList, "avocado".toList, "banana".toList] t ht).2.1⟩

/-- C7 (the scenario of `main`): after "apple", "ap", "avocado", "banana" are
inserted in that order into a fresh tree, every insertion returns `true`; the
lookup of "ap" passes "ap" then "apple", that of "b" passes "banana", that of
"c" passes nothing, and that of "" passes the four words, each once. -/
theorem main_scenario :
    (run (fun _ => true)
      ["apple".toList, "ap".toList, "avocado".toList, "banana".toList]).1 =
      [true, true, true, true] ∧
    prefix_tree_lookup true
      (tree_of ["apple".toList, "ap".toList, "avocado".toList, "banana".toList])
      "ap".toList true 0 = some [⟨some "ap".toList, 0⟩, ⟨some "apple".toList, 0⟩] ∧
    prefix_tree_lookup true
      (tree_of ["apple".toList, "ap".toList, "avocado".toList, "banana".toList])
      "b".toList true 0 = some [⟨some "banana".toList, 0⟩] ∧
    prefix_tree_lookup true
      (tree_of ["apple".toList, "ap".toList, "avocado".toList, "banana".toList])
      "c".toList true 0 = some [] ∧
    prefix_tree_lookup true
      (tree_of ["apple".toList, "ap".toList, "avocado".toList, "banana".toList])
      "".toList true 0 =
      some [⟨some "banana".toList, 0⟩, ⟨some "avocado".toList, 0⟩, ⟨some "ap".toList, 0⟩,
        ⟨some "apple".toList, 0⟩] := by
  decide!

/-- C8, counterexample: with a null tree pointer `prefix_tree_insert_word`
returns `false` although no allocation fails (none is even attempted). -/
theorem insert_word_null_tree_returns_false :
    (∀ k, (fun _ : Nat => true) k = true) ∧
    prefix_tree_insert_word (fun _ => true) 0 none "a".toList = (false, none, 0) :=
  ⟨fun _ => rfl, rfl⟩

/-- C8, amended: for every tree that is not null and every word,
`prefix_tree_insert_word` returns `false` only if (in fact exactly when) a
node allocation made during the call failed, so it returns `true` whenever
every allocation succeeds; with a null tree pointer it returns `false`
without any allocation. -/
theorem insert_word_false_iff_alloc_failed (calloc : Nat → Bool) (n : Nat) (t : prefix_tree)
    (w : List Char) :
    ((prefix_tree_insert_word calloc n (some t) w).1 = false ↔
      ∃ k, n ≤ k ∧ k < (prefix_tree_insert_word calloc n (some t) w).2.2 ∧ calloc k = false) ∧
    ((∀ k, calloc k = true) → (prefix_tree_insert_word calloc n (some t) w).1 = true) ∧
    prefix_tree_insert_word calloc n none w = (false, none, n) := by
  rw [prefix_tree_insert_word_eq]
  refine ⟨insert_prefix_false_iff calloc w n t.root, ?_, rfl⟩
  intro hall
  cases h : ( insert_prefix calloc n t.root w).1 with
  | true => rfl
  | false =>
    rcases (insert_prefix_false_iff calloc w n t.root).mp h with ⟨k, _, _, hk⟩
    rw [hall k] at hk
    cases hk

/-- C10 (lookup input validation): with a null tree or a null callback,
`prefix_tree_lookup` makes no call to the callback and returns normally,
for every prefix, context and outcome of `malloc`. -/
theorem lookup_null_tree_or_callback (malloc_ok : Bool) (tree : Option prefix_tree)
    (pfx : List Char) (cb : Bool) (cb_ctx : Nat) :
    prefix_tree_lookup malloc_ok none pfx cb cb_ctx = some [] ∧
    prefix_tree_lookup malloc_ok tree pfx false cb_ctx = some [] :=
  ⟨rfl, prefix_tree_lookup_off malloc_ok false tree pfx cb_ctx (Or.inr rfl)⟩

/-! ## A failed insertion -/

theorem walk_cons (t : prefix_node) (d : Char) (p : List Char) :
    walk t (d :: p) = match child_lookup_by_id t d with
      | none => none
      | some x => walk x p := by
  simp [walk]

theorem child_store_length (c : Char) (node : prefix_node) (cs : List prefix_node) :
    (child_store c node cs).length = cs.length := by
  induction cs with
  | nil => rfl
  | cons head tail ih =>
    by_cases hh : head.id = c
    · rw [child_store, if_pos hh]; rfl
    · rw [child_store, if_neg hh]; simp [ih]

theorem insert_prefix_is_leaf (calloc : Nat → Bool) (c : Char) (rest : List Char) (n : Nat)
    (t : prefix_node) : ( insert_prefix calloc n t (c :: rest)).2.1.is_leaf = t.is_leaf := by
  cases h : child_lookup_by_id t c with
  | some node => simp [ insert_prefix_found calloc n rest h, child_store_in, prefix_node.is_leaf]
  | none =>
    cases ha : calloc n with
    | false => simp [ insert_prefix_fail calloc n rest h ha]
    | true => simp [ insert_prefix_new calloc n rest h ha, prefix_node.is_leaf]

theorem insert_prefix_children_length (calloc : Nat → Bool) (w : List Char) (n : Nat)
    (t : prefix_node) :
    ( insert_prefix calloc n t w).2.1.children.length ≤ t.children.length + 1 := by
  cases w with
  | nil => simp [ insert_prefix_nil, prefix_node.children]
  | cons c rest =>
    cases h : child_lookup_by_id t c with
    | some node =>
      simp [ insert_prefix_found calloc n rest h, child_store_in, prefix_node.children,
        child_store_length]
    | none =>
      cases ha : calloc n with
      | false => simp [ insert_prefix_fail calloc n rest h ha]
      | true => simp [ insert_prefix_new calloc n rest h ha, prefix_node.children]

theorem words_below_list_child_store {cs : List prefix_node} {c : Char} {x node : prefix_node}
    (hx : cs.find? (fun m => m.id == c) = some x) (hid : node.id = x.id)
    (hw : words_below node = words_below x) :
    words_below_list (child_store c node cs) = words_below_list cs := by
  induction cs with
  | nil => simp at hx
  | cons head tail ih =>
    by_cases hh : head.id = c
    · rw [find_cons_eq _ hh] at hx
      have : head = x := Option.some.inj hx
      subst this
      rw [child_store, if_pos hh]
      simp only [words_below_list, hid, hw]
    · rw [find_cons_ne _ hh] at hx
      rw [child_store, if_neg hh]
      simp only [words_below_list, ih hx]

theorem words_below_fresh (c : Char) : words_below (.mk c false []) = [] := by
  simp [words_below, words_below_list]

/-- A failed `insert_prefix` leaves the enumeration below the node as it
was. -/
theorem insert_prefix_failed_words (calloc : Nat → Bool) (w : List Char) :
    ∀ (n : Nat) (t : prefix_node), ( insert_prefix calloc n t w).1 = false →
      words_below ( insert_prefix calloc n t w).2.1 = words_below t := by
  induction w with
  | nil => intro n t h; rw [insert_prefix_nil] at h; cases h
  | cons c rest ih =>
    intro n t
    cases h : child_lookup_by_id t c with
    | some node =>
      rw [insert_prefix_found calloc n rest h]
      intro hf
      have hi := ih n node hf
      have hid : ( insert_prefix calloc n node rest).2.1.id = node.id := insert_prefix_id _ _ _ _
      rw [words_below_eq, words_below_eq t]
      simp only [child_store_in, prefix_node.is_leaf_mk, prefix_node.children_mk]
      rw [words_below_list_child_store h hid hi]
    | none =>
      cases ha : calloc n with
      | false => rw [insert_prefix_fail calloc n rest h ha]; intro _; rfl
      | true =>
        rw [insert_prefix_new calloc n rest h ha]
        intro hf
        have hi := ih (n + 1) (.mk c false []) hf
        rw [words_below_eq, words_below_eq t]
        simp only [prefix_node.is_leaf_mk, prefix_node.children_mk, words_below_list]
        rw [hi, words_below_fresh]
        rfl

/-- After a failed `insert_prefix`, every path that existed still exists and
ends at a node with the same id, the same leaf flag and the same enumeration
below it. -/
theorem insert_prefix_failed_old (calloc : Nat → Bool) (w : List Char) :
    ∀ (n : Nat) (t : prefix_node), ( insert_prefix calloc n t w).1 = false →
      ∀ (p : List Char) (a : prefix_node), walk t p = some a →
        ∃ a1, walk ( insert_prefix calloc n t w).2.1 p = some a1 ∧ a1.id = a.id ∧
          a1.is_leaf = a.is_leaf ∧ words_below a1 = words_below a := by
  induction w with
  | nil => intro n t h; rw [insert_prefix_nil] at h; cases h
  | cons c rest ih =>
    intro n t hf p a hp
    cases p with
    | nil =>
      simp only [walk, Option.some.injEq] at hp
      subst hp
      exact ⟨_, rfl, insert_prefix_id _ _ _ _, insert_prefix_is_leaf _ _ _ _ _,
        insert_prefix_failed_words calloc (c :: rest) n _ hf⟩
    | cons d p1 =>
      rw [walk_cons] at hp
      cases h : child_lookup_by_id t c with
      | some node =>
        rw [insert_prefix_found calloc n rest h] at hf ⊢
        have hid : ( insert_prefix calloc n node rest).2.1.id = c := by
          rw [insert_prefix_id]; exact (child_lookup_some h).2
        by_cases hd : d = c
        · subst hd
          rw [h] at hp
          rw [walk_cons, child_lookup_store_same h hid]
          exact ih n node hf p1 a hp
        · rw [walk_cons, child_lookup_store_other hid hd]
          exact ⟨a, hp, rfl, rfl, rfl⟩
      | none =>
        cases ha : calloc n with
        | false =>
          rw [insert_prefix_fail calloc n rest h ha]
          exact ⟨a, by rw [walk_cons]; exact hp, rfl, rfl, rfl⟩
        | true =>
          rw [insert_prefix_new calloc n rest h ha]
          have hid : ( insert_prefix calloc (n + 1) (.mk c false []) rest).2.1.id = c := by
            rw [insert_prefix_id]; rfl
          have hd : d ≠ c := by
            intro e
            rw [e, h] at hp
            cases hp
          rw [walk_cons, child_lookup_new_other _ _ _ hid hd]
          exact ⟨a, hp, rfl, rfl, rfl⟩

/-- After a failed `insert_prefix` of `w`, a path that did not exist before
is a proper prefix of `w` and ends at a node that is not marked, has at most
one child and has no marked node below it. -/
theorem insert_prefix_failed_new (calloc : Nat → Bool) (w : List Char) :
    ∀ (n : Nat) (t : prefix_node), ( insert_prefix calloc n t w).1 = false →
      ∀ (p : List Char) (a1 : prefix_node),
        walk ( insert_prefix calloc n t w).2.1 p = some a1 → walk t p = none →
        p <+: w ∧ p.length < w.length ∧ a1.is_leaf = false ∧ a1.children.length ≤ 1 ∧
          words_below a1 = [] := by
  induction w with
  | nil => intro n t h; rw [insert_prefix_nil] at h; cases h
  | cons c rest ih =>
    intro n t hf p a1 hp1 hp
    cases p with
    | nil => simp [walk] at hp
    | cons d p1 =>
      rw [walk_cons] at hp hp1
      cases h : child_lookup_by_id t c with
      | some node =>
        rw [insert_prefix_found calloc n rest h] at hf hp1
        have hid : ( insert_prefix calloc n node rest).2.1.id = c := by
          rw [insert_prefix_id]; exact (child_lookup_some h).2
        by_cases hd : d = c
        · subst hd
          rw [h] at hp
          rw [child_lookup_store_same h hid] at hp1
          rcases ih n node hf p1 a1 hp1 hp with ⟨h1, h2, h3⟩
          exact ⟨(List.prefix_cons_inj d).mpr h1, by simpa using h2, h3⟩
        · rw [child_lookup_store_other hid hd] at hp1
          rw [hp] at hp1
          cases hp1
      | none =>
        cases ha : calloc n with
        | false =>
          rw [insert_prefix_fail calloc n rest h ha] at hp1
          rw [hp] at hp1
          cases hp1
        | true =>
          rw [insert_prefix_new calloc n rest h ha] at hf hp1
          have hid : ( insert_prefix calloc (n + 1) (.mk c false []) rest).2.1.id = c := by
            rw [insert_prefix_id]; rfl
          by_cases hd : d = c
          · subst hd
            rw [child_lookup_new_same _ _ _ hid] at hp1
            simp only at hp1
            cases p1 with
            | nil =>
              simp only [walk, Option.some.injEq] at hp1
              subst hp1
              cases rest with
              | nil => rw [insert_prefix_nil] at hf; cases hf
              | cons e rest1 =>
                refine ⟨⟨e :: rest1, rfl⟩, by simp, ?_, ?_, ?_⟩
                · rw [insert_prefix_is_leaf]; rfl
                · exact insert_prefix_children_length calloc (e :: rest1) (n + 1) _
                · rw [insert_prefix_failed_words calloc (e :: rest1) (n + 1) _ hf,
                    words_below_fresh]
            | cons e p2 =>
              rcases ih (n + 1) (.mk d false []) hf (e :: p2) a1 hp1 (walk_fresh d e p2) with
                ⟨h1, h2, h3⟩
              exact ⟨(List.prefix_cons_inj d).mpr h1, by simpa using h2, h3⟩
          · rw [child_lookup_new_other _ _ _ hid hd] at hp1
            have : child_lookup_by_id t d = t.children.find? (fun m => m.id == d) := rfl
            rw [← this, hp] at hp1
            cases hp1

theorem node_count_eq (t : prefix_node) : node_count t = 1 + node_count_list t.children := by
  cases t; simp [node_count, prefix_node.children]

theorem node_count_child_store {cs : List prefix_node} {c : Char} {x : prefix_node}
    (node : prefix_node) (hx : cs.find? (fun m => m.id == c) = some x) :
    node_count_list (child_store c node cs) + node_count x =
      node_count_list cs + node_count node := by
  induction cs with
  | nil => simp at hx
  | cons head tail ih =>
    by_cases hh : head.id = c
    · rw [find_cons_eq _ hh] at hx
      have : head = x := Option.some.inj hx
      subst this
      rw [child_store, if_pos hh]
      simp only [node_count_list]
      omega
    · rw [find_cons_ne _ hh] at hx
      rw [child_store, if_neg hh]
      simp only [node_count_list]
      have := ih hx
      omega

/-- Every `calloc` call of `insert_prefix` either adds one node to the tree or
is the failed call that ends the walk. -/
theorem insert_prefix_node_count (calloc : Nat → Bool) (w : List Char) :
    ∀ (n : Nat) (t : prefix_node),
      node_count ( insert_prefix calloc n t w).2.1 +
          (if ( insert_prefix calloc n t w).1 then 0 else 1) + n =
        node_count t + ( insert_prefix calloc n t w).2.2 := by
  induction w with
  | nil =>
    intro n t
    rw [insert_prefix_nil, node_count_eq, node_count_eq t]
    simp [prefix_node.children]
  | cons c rest ih =>
    intro n t
    cases h : child_lookup_by_id t c with
    | some node =>
      rw [insert_prefix_found calloc n rest h]
      have hi := ih n node
      have hc := node_count_child_store ( insert_prefix calloc n node rest).2.1 h
      rw [node_count_eq, node_count_eq t]
      simp only [child_store_in, prefix_node.children_mk]
      omega
    | none =>
      cases ha : calloc n with
      | false => rw [insert_prefix_fail calloc n rest h ha]; simp; omega
      | true =>
        rw [insert_prefix_new calloc n rest h ha]
        have hi := ih (n + 1) (.mk c false [])
        have hfresh : node_count (.mk c false []) = 1 := by simp [node_count, node_count_list]
        rw [node_count_eq, node_count_eq t]
        simp only [prefix_node.children_mk, node_count_list]
        omega

/-- In a failed `insert_prefix` the failed `calloc` call is the last one made,
and every call before it succeeded. -/
theorem insert_prefix_failed_last (calloc : Nat → Bool) (w : List Char) :
    ∀ (n : Nat) (t : prefix_node), ( insert_prefix calloc n t w).1 = false →
      n < ( insert_prefix calloc n t w).2.2 ∧
      calloc (( insert_prefix calloc n t w).2.2 - 1) = false ∧
      ∀ k, n ≤ k → k < ( insert_prefix calloc n t w).2.2 - 1 → calloc k = true := by
  induction w with
  | nil => intro n t h; rw [insert_prefix_nil] at h; cases h
  | cons c rest ih =>
    intro n t
    cases h : child_lookup_by_id t c with
    | some node => rw [insert_prefix_found calloc n rest h]; exact ih n node
    | none =>
      cases ha : calloc n with
      | false =>
        rw [insert_prefix_fail calloc n rest h ha]
        intro _
        refine ⟨Nat.lt_succ_self n, by simpa using ha, ?_⟩
        intro k h1 h2
        simp at h2
        omega
      | true =>
        rw [insert_prefix_new calloc n rest h ha]
        dsimp only
        intro hf
        rcases ih (n + 1) (.mk c false []) hf with ⟨h1, h2, h3⟩
        refine ⟨by omega, h2, ?_⟩
        intro k hk1 hk2
        by_cases hk : k = n
        · rw [hk]; exact ha
        · exact h3 k (by omega) hk2

theorem children_words_eq {a b : prefix_node} (hl : a.is_leaf = b.is_leaf)
    (hw : words_below a = words_below b) :
    words_below_list a.children = words_below_list b.children := by
  rw [words_below_eq, words_below_eq b, hl] at hw
  exact List.append_cancel_left hw

theorem children_words_nil {a : prefix_node} (hw : words_below a = []) :
    words_below_list a.children = [] := by
  rw [words_below_eq] at hw
  exact (List.append_eq_nil.mp hw).2

/-- A failed `insert_prefix` at the root changes the words of no lookup. -/
theorem lookup_words_failed (calloc : Nat → Bool) (n : Nat) (t : prefix_tree) (w : List Char)
    (d : Nat) (hf : ( insert_prefix calloc n t.root w).1 = false) (pfx : List Char) :
    lookup_words ⟨d, ( insert_prefix calloc n t.root w).2.1⟩ pfx = lookup_words t pfx := by
  unfold lookup_words
  simp only
  cases hw : walk t.root pfx with
  | some m =>
    rcases insert_prefix_failed_old calloc w n t.root hf pfx m hw with ⟨m1, h1, _, h3, h4⟩
    rw [h1]
    simp only
    rw [h3, children_words_eq h3 h4]
  | none =>
    cases hw1 : walk ( insert_prefix calloc n t.root w).2.1 pfx with
    | none => rfl
    | some m1 =>
      rcases insert_prefix_failed_new calloc w n t.root hf pfx m1 hw1 hw with
        ⟨_, _, h3, _, h5⟩
      simp [h3, children_words_nil h5]

/-- The tree after a failed insertion: in the tree of any run, when a node
allocation fails during `prefix_tree_insert_word(tree, word)`, the call
returns `false`; every path that existed still exists and ends at a node with
the same id and leaf flag; a path that is new is a proper prefix of `word` and
ends at a node that is not marked and has at most one child; the number of
nodes grew by the number of `calloc` calls that came before the failed one,
which is the last call made; and a lookup whose prefix is not empty, or on a
root that is not marked, makes the same calls as before the failed
insertion. -/
theorem failed_insert_tree_state (calloc : Nat → Bool) (ws : List (List Char))
    (t : prefix_tree) (ht : (run calloc ws).2.1 = some t) (hws : ∀ w ∈ ws, NUL ∉ w)
    (calloc1 : Nat → Bool) (n : Nat) (word : List Char) (hword : NUL ∉ word)
    (hfail : ∃ k, n ≤ k ∧ k < (prefix_tree_insert_word calloc1 n (some t) word).2.2 ∧
      calloc1 k = false) :
    (prefix_tree_insert_word calloc1 n (some t) word).1 = false ∧
    ∃ t1, (prefix_tree_insert_word calloc1 n (some t) word).2.1 = some t1 ∧
      (∀ (p : List Char) (a : prefix_node), walk t.root p = some a →
        ∃ a1, walk t1.root p = some a1 ∧ a1.id = a.id ∧ a1.is_leaf = a.is_leaf) ∧
      (∀ (p : List Char) (a1 : prefix_node), walk t1.root p = some a1 →
        walk t.root p = none →
        p <+: word ∧ p.length < word.length ∧ a1.is_leaf = false ∧
          a1.children.length ≤ 1) ∧
      (calloc1 ((prefix_tree_insert_word calloc1 n (some t) word).2.2 - 1) = false ∧
        (∀ k, n ≤ k → k < (prefix_tree_insert_word calloc1 n (some t) word).2.2 - 1 →
          calloc1 k = true) ∧
        node_count t1.root + n + 1 =
          node_count t.root + (prefix_tree_insert_word calloc1 n (some t) word).2.2) ∧
      ∀ (malloc_ok : Bool) (pfx : List Char) (cb : Bool) (cb_ctx : Nat),
        pfx ≠ [] ∨ t.root.is_leaf = false →
        prefix_tree_lookup malloc_ok (some t1) pfx cb cb_ctx =
          prefix_tree_lookup malloc_ok (some t) pfx cb cb_ctx := by
  rw [prefix_tree_insert_word_eq] at hfail ⊢
  dsimp only at hfail ⊢
  have hf : ( insert_prefix calloc1 n t.root word).1 = false :=
    (insert_prefix_false_iff calloc1 word n t.root).mpr hfail
  have hgood : good t := (run_spec calloc ws t ht).2.2.2 hws
  have hgood1 := good_insert_word calloc1 n t word hword hgood
  refine ⟨hf, _, rfl, ?_, ?_, ?_, ?_⟩
  · intro p a hp
    rcases insert_prefix_failed_old calloc1 word n t.root hf p a hp with ⟨a1, h1, h2, h3, _⟩
    exact ⟨a1, h1, h2, h3⟩
  · intro p a1 hp1 hp
    rcases insert_prefix_failed_new calloc1 word n t.root hf p a1 hp1 hp with
      ⟨h1, h2, h3, h4, _⟩
    exact ⟨h1, h2, h3, h4⟩
  · rcases insert_prefix_failed_last calloc1 word n t.root hf with ⟨_, h2, h3⟩
    refine ⟨h2, h3, ?_⟩
    have := insert_prefix_node_count calloc1 word n t.root
    rw [hf] at this
    simp only [Bool.false_eq_true, if_false] at this
    dsimp only
    omega
  · intro malloc_ok pfx cb cb_ctx _
    by_cases hoff : malloc_ok = false ∨ cb = false
    · rw [prefix_tree_lookup_off malloc_ok cb _ pfx cb_ctx hoff,
        prefix_tree_lookup_off malloc_ok cb _ pfx cb_ctx hoff]
    · have hm : malloc_ok = true := by cases malloc_ok <;> simp_all
      have hc : cb = true := by cases cb <;> simp_all
      rw [hm, hc, prefix_tree_lookup_eq _ hgood1.2.1 hgood1.2.2,
        prefix_tree_lookup_eq t hgood.2.1 hgood.2.2,
        lookup_words_failed calloc1 n t word _ hf]

/-! ## Nodes, positions and paths of ids -/

theorem child_index_some {c : Char} {cs : List prefix_node} {i : Nat}
    (h : child_index c cs = some i) :
    ∃ x, cs[i]? = some x ∧ cs.find? (fun m => m.id == c) = some x := by
  induction cs generalizing i with
  | nil => simp [child_index] at h
  | cons head tail ih =>
    by_cases hh : head.id = c
    · rw [child_index, if_pos hh] at h
      have : i = 0 := (Option.some.inj h).symm
      subst this
      exact ⟨head, by simp, find_cons_eq _ hh⟩
    · rw [child_index, if_neg hh] at h
      cases hi : child_index c tail with
      | none => rw [hi] at h; cases h
      | some j =>
        rw [hi] at h
        have : i = j + 1 := (Option.some.inj h).symm
        subst this
        rcases ih hi with ⟨x, h1, h2⟩
        exact ⟨x, by simpa using h1, by rw [find_cons_ne _ hh]; exact h2⟩

theorem child_index_none {c : Char} {cs : List prefix_node} (h : child_index c cs = none) :
    cs.find? (fun m => m.id == c) = none := by
  induction cs with
  | nil => rfl
  | cons head tail ih =>
    by_cases hh : head.id = c
    · rw [child_index, if_pos hh] at h; cases h
    · rw [child_index, if_neg hh] at h
      rw [find_cons_ne _ hh]
      cases hi : child_index c tail with
      | none => exact ih hi
      | some j => rw [hi] at h; cases h

theorem child_index_of_nodup {cs : List prefix_node} {i : Nat} {x : prefix_node}
    (hn : (cs.map prefix_node.id).Nodup) (hx : cs[i]? = some x) :
    child_index x.id cs = some i := by
  induction cs generalizing i with
  | nil => simp at hx
  | cons head tail ih =>
    rw [List.map_cons, List.nodup_cons] at hn
    cases i with
    | zero =>
      have : head = x := by simpa using hx
      subst this
      simp [child_index]
    | succ j =>
      have hx1 : tail[j]? = some x := by simpa using hx
      have hmem : x ∈ tail := List.getElem?_mem hx1
      have hne : head.id ≠ x.id := fun e => hn.1 (e ▸ List.mem_map_of_mem _ hmem)
      rw [child_index, if_neg hne, ih hn.2 hx1]
      rfl

/-- The position reached by child lookups along `s` holds the node that `walk`
returns, and the ids on the way to it are `s`. -/
theorem walk_pos_spec (s : List Char) :
    ∀ (t : prefix_node) (pos : List Nat), walk_pos t s = some pos →
      node_at t pos = walk t s ∧ ids_at t pos = s ∧ ∃ a, walk t s = some a := by
  induction s with
  | nil =>
    intro t pos h
    simp only [walk_pos, Option.some.injEq] at h
    subst h
    exact ⟨rfl, rfl, t, rfl⟩
  | cons c rest ih =>
    intro t pos h
    rw [walk_pos] at h
    cases hi : child_index c t.children with
    | none => rw [hi] at h; cases h
    | some i =>
      rcases child_index_some hi with ⟨x, hx1, hx2⟩
      rw [hi] at h
      simp only [hx1] at h
      cases hw : walk_pos x rest with
      | none => rw [hw] at h; cases h
      | some pos1 =>
        rw [hw] at h
        have : pos = i :: pos1 := (Option.some.inj h).symm
        subst this
        rcases ih x pos1 hw with ⟨h1, h2, h3⟩
        have hl : child_lookup_by_id t c = some x := hx2
        refine ⟨?_, ?_, ?_⟩
        · rw [node_at, hx1, walk_cons, hl]; exact h1
        · rw [ids_at, hx1]
          simp only
          rw [h2, (child_lookup_some hl).2]
        · rw [walk_cons, hl]; exact h3

/-- With unique child ids, child lookups along the ids on the way to a node
reach that very node. -/
theorem walk_pos_ids_at (pos : List Nat) :
    ∀ (t a : prefix_node), all_nodes uniq_node t → node_at t pos = some a →
      walk_pos t (ids_at t pos) = some pos := by
  induction pos with
  | nil => intro t a _ _; rfl
  | cons i rest ih =>
    intro t a ht h
    rw [node_at] at h
    cases hx : t.children[i]? with
    | none => rw [hx] at h; cases h
    | some x =>
      rw [hx] at h
      have ht2 := (all_nodes_iff _ t).mp ht
      have hmem : x ∈ t.children := List.getElem?_mem hx
      rw [ids_at, hx]
      simp only
      rw [walk_pos, child_index_of_nodup ht2.1 hx]
      simp only [hx]
      rw [ih x a (ht2.2 x hmem) h]
      rfl

theorem node_at_all_nodes {q : prefix_node → Prop} (pos : List Nat) :
    ∀ (t a : prefix_node), all_nodes q t → node_at t pos = some a → all_nodes q a := by
  induction pos with
  | nil =>
    intro t a ht h
    simp only [node_at, Option.some.injEq] at h
    exact h ▸ ht
  | cons i rest ih =>
    intro t a ht h
    rw [node_at] at h
    cases hx : t.children[i]? with
    | none => rw [hx] at h; cases h
    | some x =>
      rw [hx] at h
      exact ih x a (((all_nodes_iff q t).mp ht).2 x (List.getElem?_mem hx)) h

/-- With unique child ids, the node at a position is the node that `walk`
returns for the ids on the way to it. -/
theorem walk_ids_at (t a : prefix_node) (pos : List Nat) (ht : all_nodes uniq_node t)
    (h : node_at t pos = some a) : walk t (ids_at t pos) = some a := by
  have h1 := walk_pos_ids_at pos t a ht h
  rw [← (walk_pos_spec _ t pos h1).1]
  exact h

theorem stored_eq_is_leaf {t a : prefix_node} {p : List Char} (h : walk t p = some a) :
    stored t p = a.is_leaf := by
  have := stored_append p t []
  rw [List.append_nil, h] at this
  rw [this]
  rfl

theorem inserted_words_all_true (ws : List (List Char)) :
    ∀ rets : List Bool, rets.length = ws.length → (∀ r ∈ rets, r = true) →
      inserted_words ws rets = ws := by
  induction ws with
  | nil => intro rets _ _; simp [inserted_words]
  | cons w ws ih =>
    intro rets hl hr
    cases rets with
    | nil => simp at hl
    | cons r rets =>
      rw [inserted_words_cons, hr r (List.mem_cons_self _ _), if_pos rfl,
        ih rets (by simpa using hl) (fun x hx => hr x (List.mem_cons_of_mem _ hx))]

theorem run_rets_length (calloc : Nat → Bool) (ws : List (List Char)) (t : prefix_tree)
    (h : (run calloc ws).2.1 = some t) : (run calloc ws).1.length = ws.length := by
  rw [run_tree_some calloc ws t h]
  rcases insert_words_spec calloc ws 2 ⟨0, .mk NUL false []⟩ with ⟨_, _, _, h3, _⟩
  exact h3

/-! ## Leaf markers, unique children, the root -/

/-- C11 (leaf marker): in the tree of a run whose insertions all returned
`true`, a node, the root included, is marked as a leaf if and only if the
sequence of child ids on the way from the root to it is one of the words
passed to `prefix_tree_insert_word`. -/
theorem leaf_iff_path_inserted (calloc : Nat → Bool) (ws : List (List Char)) (t : prefix_tree)
    (ht : (run calloc ws).2.1 = some t) (hok : ∀ r ∈ (run calloc ws).1, r = true)
    (pos : List Nat) (node : prefix_node) (hn : node_at t.root pos = some node) :
    node.is_leaf = true ↔ ids_at t.root pos ∈ ws := by
  rcases run_spec calloc ws t ht with ⟨_, hst, hu, _⟩
  have hw := walk_ids_at t.root node pos hu hn
  rw [← stored_eq_is_leaf hw, hst,
    inserted_words_all_true ws _ (run_rets_length calloc ws t ht) hok]

/-- C11 at a concrete input: in the tree that holds "ab", the node at the end
of the path "ab" is marked and the node at the end of "a" is not. -/
theorem leaf_iff_path_inserted_witness :
    ((prefix_node.mk 'b' true []).is_leaf = true ↔
      ids_at tree_ab.root [0, 0] ∈ ["ab".toList]) ∧
    ids_at tree_ab.root [0, 0] = "ab".toList ∧
    ¬ (prefix_node.mk 'a' false [.mk 'b' true []]).is_leaf = true :=
  ⟨leaf_iff_path_inserted (fun _ => true) ["ab".toList] tree_ab rfl (by decide) [0, 0]
    (.mk 'b' true []) rfl, by decide, by decide⟩

theorem child_ids_store_in {t node : prefix_node} {c : Char} (hn : node.id = c) :
    child_ids (child_store_in t c node) = child_ids t := by
  simp only [child_ids, child_store_in, prefix_node.children_mk]
  exact child_store_ids hn

/-- C12 (unique children): in the tree of any run, whatever allocations failed,
no node has two children with the same id; and at any node `insert_prefix`
goes on into the child that `child_lookup_by_id` found, leaving the list of
child ids and the allocator untouched at that step, and puts a new child, with
the id looked for, only when the lookup found none and the allocation
succeeded. -/
theorem children_ids_unique (calloc : Nat → Bool) (ws : List (List Char)) (t : prefix_tree)
    (ht : (run calloc ws).2.1 = some t) (pos : List Nat) (node : prefix_node)
    (hn : node_at t.root pos = some node) :
    (child_ids node).Nodup ∧
    ∀ (calloc1 : Nat → Bool) (n : Nat) (x : prefix_node) (c : Char) (rest : List Char),
      (∀ y, child_lookup_by_id x c = some y →
        child_ids ( insert_prefix calloc1 n x (c :: rest)).2.1 = child_ids x ∧
        child_lookup_by_id ( insert_prefix calloc1 n x (c :: rest)).2.1 c =
          some ( insert_prefix calloc1 n y rest).2.1 ∧
        ( insert_prefix calloc1 n x (c :: rest)).2.2 = ( insert_prefix calloc1 n y rest).2.2) ∧
      (child_lookup_by_id x c = none →
        child_ids ( insert_prefix calloc1 n x (c :: rest)).2.1 =
          if calloc1 n = true then c :: child_ids x else child_ids x) := by
  have hu := (run_spec calloc ws t ht).2.2.1
  have hnode := node_at_all_nodes pos t.root node hu hn
  refine ⟨((all_nodes_iff _ node).mp hnode).1, ?_⟩
  intro calloc1 n x c rest
  constructor
  · intro y hy
    have hid : ( insert_prefix calloc1 n y rest).2.1.id = c := by
      rw [insert_prefix_id]; exact (child_lookup_some hy).2
    rw [insert_prefix_found calloc1 n rest hy]
    exact ⟨child_ids_store_in hid, child_lookup_store_same hy hid, rfl⟩
  · intro hnone
    cases ha : calloc1 n with
    | false => rw [insert_prefix_fail calloc1 n rest hnone ha]; simp
    | true =>
      rw [insert_prefix_new calloc1 n rest hnone ha]
      simp [child_ids, prefix_node.children_mk, insert_prefix_id, prefix_node.id_mk]

/-- C12 at a concrete input: the root of the tree of the four words of `main`
has the children "b" and "a". -/
theorem children_ids_unique_witness :
    ∃ t, (run (fun _ => true)
        ["apple".toList, "ap".toList, "avocado".toList, "banana".toList]).2.1 = some t ∧
      child_ids t.root = ['b', 'a'] ∧ (child_ids t.root).Nodup := by
  rcases tree_of_spec ["apple".toList, "ap".toList, "avocado".toList, "banana".toList] with
    ⟨t, ht, _⟩
  refine ⟨t, ht, ?_, (children_ids_unique (fun _ => true)
    ["apple".toList, "ap".toList, "avocado".toList, "banana".toList] t ht [] t.root rfl).1⟩
  have h : (tree_of ["apple".toList, "ap".toList, "avocado".toList, "banana".toList]).map
      (fun t => child_ids t.root) = some ['b', 'a'] := by decide!
  rw [ht] at h
  exact Option.some.inj h

theorem empty_word_inserted (calloc : Nat → Bool) (ws : List (List Char)) :
    ∀ (n : Nat) (t : prefix_tree), [] ∈ ws →
      [] ∈ inserted_words ws (insert_words calloc n (some t) ws).1 := by
  induction ws with
  | nil => intro n t h; cases h
  | cons w ws ih =>
    intro n t h
    rw [insert_words_cons, prefix_tree_insert_word_eq]
    simp only
    rw [inserted_words_cons]
    rcases List.mem_cons.mp h with h | h
    · subst h
      rw [insert_prefix_nil]
      simp
    · have := ih ( insert_prefix calloc n t.root w).2.2
        ⟨max t.depth w.length, ( insert_prefix calloc n t.root w).2.1⟩ h
      cases ( insert_prefix calloc n t.root w).1
      · simpa using this
      · simp only [if_true]
        exact List.mem_cons_of_mem _ this

/-- C13, counterexample: after the empty word is inserted into a fresh tree
the root is marked as a leaf. -/
theorem root_marked_after_empty_word :
    ∃ t, (run (fun _ => true) [[]]).2.1 = some t ∧ t.root.is_leaf = true :=
  ⟨⟨0, .mk NUL true []⟩, rfl, rfl⟩

/-- C13, amended (the root as a leaf): the root of a tree just created is not
marked, and in the tree of any run of `prefix_tree_insert_word` calls the root
is marked if and only if the empty word is among the words passed; so it stays
unmarked as long as no call passes the empty word. -/
theorem root_leaf_iff_empty_word (calloc : Nat → Bool) (ws : List (List Char))
    (t : prefix_tree) (ht : (run calloc ws).2.1 = some t) :
    (∀ t0, (prefix_tree_create calloc 0).1 = some t0 → t0.root.is_leaf = false) ∧
    (t.root.is_leaf = true ↔ [] ∈ ws) := by
  constructor
  · intro t0 h0
    unfold prefix_tree_create node_alloc at h0
    cases hc0 : calloc 0 with
    | false => simp [hc0] at h0
    | true =>
      cases hc1 : calloc (0 + 1) with
      | false => simp [hc0, hc1] at h0
      | true =>
        simp [hc0, hc1] at h0
        rw [← h0]
        rfl
  · have hst := (run_spec calloc ws t ht).2.1 []
    simp only [stored] at hst
    rw [hst]
    constructor
    · exact inserted_words_subset ws _ []
    · intro h
      rw [run_tree_some calloc ws t ht]
      exact empty_word_inserted calloc ws 2 _ h

/-- C13, the amended claim at a concrete input: after "ab" only, the root is
not marked. -/
theorem root_leaf_iff_empty_word_witness :
    (tree_ab.root.is_leaf = true ↔ [] ∈ ["ab".toList]) ∧ ¬ tree_ab.root.is_leaf = true :=
  ⟨(root_leaf_iff_empty_word (fun _ => true) ["ab".toList] tree_ab rfl).2, by decide⟩

/-- Inserting the empty word into any tree returns `true`, allocates nothing,
marks the root and leaves the rest of the tree record as it was. -/
theorem insert_empty_word (calloc : Nat → Bool) (n : Nat) (t : prefix_tree) :
    prefix_tree_insert_word calloc n (some t) [] =
      (true, some ⟨t.depth, .mk t.root.id true t.root.children⟩, n) := by
  rw [prefix_tree_insert_word_eq, insert_prefix_nil]
  simp

/-- C14 (empty-string insertion), at the input where the code departs from it:
on the fresh tree, inserting the empty word returns `true`, marks the root and
changes nothing else; but the lookup of the empty prefix that follows passes
one word, read from a scratch buffer that was never written, and the empty
word is not among the words passed. -/
theorem empty_insert_then_lookup :
    tree_of [] = some ⟨0, .mk NUL false []⟩ ∧
    prefix_tree_insert_word (fun _ => true) 2 (some ⟨0, .mk NUL false []⟩) [] =
      (true, some ⟨0, .mk NUL true []⟩, 2) ∧
    prefix_tree_lookup true (some ⟨0, .mk NUL true []⟩) [] true 0 = some [⟨none, 0⟩] ∧
    some [] ∉ words_passed (prefix_tree_lookup true (some ⟨0, .mk NUL true []⟩) [] true 0) :=
  ⟨rfl, rfl, by decide, by decide⟩

/-! ## The writes of a lookup stay inside the scratch buffer -/

theorem buffer_write_some {buffer : List (Option Char)} {i : Nat} (ch : Char)
    (h : i < buffer.length) :
    buffer_write buffer i ch = some (buffer.set i (some ch)) := by
  unfold buffer_write
  rw [if_pos h]

/-- `append_char_to_word_buffer` stays inside the buffer exactly when both
indices it writes, `len` and `len + 1`, are inside. -/
theorem append_char_in_bounds (word : word_buffer_st) (ch : Char) :
    (word.len + 1 < word.buffer.length →
      ∃ word1, append_char_to_word_buffer word ch = some word1 ∧
        word1.len = word.len + 1 ∧ word1.buffer.length = word.buffer.length) ∧
    (append_char_to_word_buffer word ch ≠ none → word.len + 1 < word.buffer.length) := by
  constructor
  · intro h
    unfold append_char_to_word_buffer
    rw [buffer_write_some ch (by omega : word.len < word.buffer.length)]
    simp only
    rw [buffer_write_some NUL (by simpa using h)]
    exact ⟨_, rfl, rfl, by simp⟩
  · intro h
    by_contra hlt
    apply h
    unfold append_char_to_word_buffer
    by_cases h1 : word.len < word.buffer.length
    · rw [buffer_write_some ch h1]
      simp only
      unfold buffer_write
      rw [if_neg (by simpa using hlt)]
    · unfold buffer_write
      rw [if_neg h1]

/-- `remove_char_from_word_buffer` stays inside the buffer exactly when `len`
does not underflow and the index it writes, `len - 1`, is inside. -/
theorem remove_char_in_bounds (word : word_buffer_st) :
    (0 < word.len → word.len - 1 < word.buffer.length →
      ∃ word1, remove_char_from_word_buffer word = some word1 ∧
        word1.len = word.len - 1 ∧ word1.buffer.length = word.buffer.length) ∧
    (remove_char_from_word_buffer word ≠ none →
      0 < word.len ∧ word.len - 1 < word.buffer.length) := by
  constructor
  · intro h0 h
    unfold remove_char_from_word_buffer
    rw [if_neg (by omega), buffer_write_some NUL h]
    exact ⟨_, rfl, rfl, by simp⟩
  · intro h
    by_contra hlt
    apply h
    unfold remove_char_from_word_buffer
    by_cases h0 : word.len = 0
    · rw [if_pos h0]
    · rw [if_neg h0]
      have h1 : ¬ word.len - 1 < word.buffer.length := by
        intro h1
        exact hlt ⟨by omega, h1⟩
      unfold buffer_write
      rw [if_neg h1]

theorem iterate_children_in_bounds (cb_ctx : Nat) (cs : List prefix_node) :
    (∀ c ∈ cs, leaves_in_bounds cb_ctx c) → ∀ word : word_buffer_st,
      word.len + height_list cs < word.buffer.length →
      ∃ word1 calls, iterate_children cb_ctx word cs = some (word1, calls) ∧
        word1.len = word.len ∧ word1.buffer.length = word.buffer.length := by
  induction cs with
  | nil =>
    intro _ word _
    exact ⟨word, [], by simp [iterate_children], rfl, rfl⟩
  | cons child rest ih =>
    intro hspec word hcap
    simp only [height_list] at hcap
    have h1 : height child + 1 ≤ max (height child + 1) (height_list rest) := le_max_left _ _
    have h2 : height_list rest ≤ max (height child + 1) (height_list rest) := le_max_right _ _
    rcases (append_char_in_bounds word child.id).1 (by omega) with ⟨w1, ha, hl1, hb1⟩
    rcases hspec child (List.mem_cons_self _ _) w1 (by omega) with ⟨w2, calls1, hi, hl2, hb2⟩
    rcases (remove_char_in_bounds w2).1 (by omega) (by omega) with ⟨w3, hr, hl3, hb3⟩
    rcases ih (fun c hc => hspec c (List.mem_cons_of_mem _ hc)) w3 (by omega) with
      ⟨w4, calls2, hc, hl4, hb4⟩
    refine ⟨w4, calls1 ++ calls2, ?_, by omega, by omega⟩
    rw [iterate_children, ha]
    simp only
    rw [hi]
    simp only
    rw [hr]
    simp only
    rw [hc]

theorem iterate_leaves_in_bounds (cb_ctx : Nat) :
    ∀ t : prefix_node, leaves_in_bounds cb_ctx t := by
  apply prefix_node.induct
  intro id is_leaf children ih word hcap
  rw [height_eq] at hcap
  simp only [prefix_node.children_mk] at hcap
  rcases iterate_children_in_bounds cb_ctx children ih word hcap with ⟨w1, calls, h, hl, hb⟩
  refine ⟨w1, (if is_leaf then [cb_call.mk (c_str word.buffer) cb_ctx] else []) ++ calls,
    ?_, hl, hb⟩
  rw [iterate_leaves, h]

/-- The loop of `find_node_matching_prefix` stays inside a buffer in which
`len + height node` is an index, and so does a traversal from the node it
returns. -/
theorem find_node_loop_in_bounds (p : List Char) :
    ∀ (node : prefix_node) (word : word_buffer_st),
      word.len + height node < word.buffer.length →
      ∃ r word1, find_node_loop node word p = some (r, word1) ∧
        word1.buffer.length = word.buffer.length ∧
        ∀ m, r = some m → word1.len + height m < word1.buffer.length := by
  induction p with
  | nil =>
    intro node word hcap
    refine ⟨some node, word, by simp [find_node_loop], rfl, ?_⟩
    intro m hm
    rw [← Option.some.inj hm]
    exact hcap
  | cons c rest ih =>
    intro node word hcap
    cases hf : child_lookup_by_id node c with
    | none =>
      exact ⟨none, word, by simp [find_node_loop, hf], rfl, fun m hm => by cases hm⟩
    | some child =>
      have hh := height_list_mem (child_lookup_some hf).1
      rw [← height_eq] at hh
      rcases (append_char_in_bounds word child.id).1 (by omega) with ⟨w1, ha, hl1, hb1⟩
      rcases ih child w1 (by omega) with ⟨r, w2, hfind, hb2, hr⟩
      refine ⟨r, w2, ?_, by omega, hr⟩
      rw [find_node_loop, hf]
      simp only
      rw [ha]
      exact hfind

theorem insert_words_height (calloc : Nat → Bool) (ws : List (List Char)) :
    ∀ (n : Nat) (t t1 : prefix_tree), height t.root ≤ t.depth →
      (insert_words calloc n (some t) ws).2.1 = some t1 → height t1.root ≤ t1.depth := by
  induction ws with
  | nil =>
    intro n t t1 h h1
    simp only [insert_words, Option.some.injEq] at h1
    exact h1 ▸ h
  | cons w ws ih =>
    intro n t t1 h h1
    rw [insert_words_cons, prefix_tree_insert_word_eq] at h1
    refine ih _ ⟨max t.depth w.length, ( insert_prefix calloc n t.root w).2.1⟩ t1 ?_ h1
    have := insert_prefix_height calloc w n t.root
    simp only
    omega

/-- C17 (the scratch buffer is large enough): in the tree of any run, whatever
insertions failed and whatever the words, a lookup for any prefix makes no
write outside its buffer of `depth + 1` bytes and never decrements `len`
below 0 (it returns its list of calls); every `append_char_to_word_buffer`
that stays inside has `len + 1` below the size of the buffer, so `len` never
exceeds `depth`, and every `remove_char_from_word_buffer` that stays inside
starts from a positive `len`. -/
theorem lookup_stays_in_buffer (calloc : Nat → Bool) (ws : List (List Char))
    (t : prefix_tree) (ht : (run calloc ws).2.1 = some t) (malloc_ok : Bool)
    (pfx : List Char) (cb : Bool) (cb_ctx : Nat) :
    (∃ calls, prefix_tree_lookup malloc_ok (some t) pfx cb cb_ctx = some calls) ∧
    (∀ (word : word_buffer_st) (ch : Char), append_char_to_word_buffer word ch ≠ none →
      word.len + 1 < word.buffer.length) ∧
    (∀ word : word_buffer_st, remove_char_from_word_buffer word ≠ none →
      0 < word.len ∧ word.len - 1 < word.buffer.length) := by
  refine ⟨?_, fun word ch => (append_char_in_bounds word ch).2,
    fun word => (remove_char_in_bounds word).2⟩
  by_cases hoff : malloc_ok = false ∨ cb = false
  · exact ⟨[], prefix_tree_lookup_off malloc_ok cb _ pfx cb_ctx hoff⟩
  · have hm : malloc_ok = true := by cases malloc_ok <;> simp_all
    have hc : cb = true := by cases cb <;> simp_all
    have hh : height t.root ≤ t.depth := by
      rw [run_tree_some calloc ws t ht] at ht
      exact insert_words_height calloc ws 2 ⟨0, .mk NUL false []⟩ t good_create.2.2 ht
    subst hm hc
    unfold prefix_tree_lookup find_node_matching_prefix
    simp only [Bool.true_eq_false, if_false]
    rcases find_node_loop_in_bounds pfx t.root ⟨List.replicate (t.depth + 1) none, 0⟩
      (by simp; omega) with ⟨r, w1, hfind, _, hr⟩
    rw [hfind]
    cases r with
    | none => exact ⟨[], rfl⟩
    | some m =>
      rcases iterate_leaves_in_bounds cb_ctx m w1 (hr m rfl) with ⟨w2, calls, hit, _, _⟩
      simp only
      rw [hit]
      exact ⟨calls, rfl⟩

/-- C17 at a concrete input: on the tree that holds "ab" (depth 2), the lookup
of the prefix "abcdefgh", longer than any stored word, returns without a call
and without leaving the buffer. -/
theorem lookup_stays_in_buffer_witness :
    (run (fun _ => true) ["ab".toList]).2.1 = some tree_ab ∧
    prefix_tree_lookup true (some tree_ab) "abcdefgh".toList true 0 = some [] ∧
    ∃ calls, prefix_tree_lookup true (some tree_ab) "ab".toList true 0 = some calls :=
  ⟨rfl, by decide,
    (lookup_stays_in_buffer (fun _ => true) ["ab".toList] tree_ab rfl true "ab".toList
      true 0).1⟩

/-! ## New children go to the front -/

theorem child_lookup_none_of_not_mem {t : prefix_node} {c : Char} (h : c ∉ child_ids t) :
    child_lookup_by_id t c = none := by
  unfold child_lookup_by_id
  rw [List.find?_eq_none]
  intro x hx hxc
  apply h
  have : x.id = c := by simpa using hxc
  rw [← this]
  exact List.mem_map_of_mem _ hx

/-- When every allocation succeeds, inserting into a node without children
leaves below it the one path inserted. -/
theorem words_below_insert_fresh (rest : List Char) :
    ∀ (n : Nat) (c : Char),
      words_below ( insert_prefix (fun _ => true) n (.mk c false []) rest).2.1 = [rest] := by
  induction rest with
  | nil => intro n c; rw [insert_prefix_nil]; simp [words_below, words_below_list]
  | cons d r ih =>
    intro n c
    have hnone : child_lookup_by_id (.mk c false []) d = none := by
      simp [child_lookup_by_id, prefix_node.children]
    rw [insert_prefix_new (fun _ => true) n r hnone rfl, words_below_eq]
    simp only [prefix_node.is_leaf_mk, prefix_node.children_mk, words_below_list, ih (n + 1) d,
      insert_prefix_id, prefix_node.id_mk]
    simp

/-- Insertions, all successful, of words that are not empty, whose first
characters differ from one another and from the ids of the children of the
root: the root gets one new child per word, each in front of the earlier ones,
with the word as the one path below it. -/
theorem insert_words_distinct_heads (ws : List (List Char)) :
    ∀ (n : Nat) (t : prefix_tree), (∀ w ∈ ws, w ≠ []) → (ws.map List.head?).Nodup →
      (∀ w ∈ ws, ∀ c, w.head? = some c → c ∉ child_ids t.root) →
      ∃ t1, (insert_words (fun _ => true) n (some t) ws).2.1 = some t1 ∧
        t1.root.is_leaf = t.root.is_leaf ∧
        words_below_list t1.root.children = ws.reverse ++ words_below_list t.root.children := by
  induction ws with
  | nil => intro n t _ _ _; exact ⟨t, rfl, rfl, rfl⟩
  | cons w ws ih =>
    intro n t hne hd hnew
    rw [List.map_cons, List.nodup_cons] at hd
    cases w with
    | nil => exact absurd rfl (hne [] (List.mem_cons_self _ _))
    | cons c rest =>
      have hc : c ∉ child_ids t.root := hnew (c :: rest) (List.mem_cons_self _ _) c rfl
      have hnone := child_lookup_none_of_not_mem hc
      rw [insert_words_cons, prefix_tree_insert_word_eq,
        insert_prefix_new (fun _ => true) n rest hnone rfl]
      simp only
      have hnew1 : ∀ v ∈ ws, ∀ d, v.head? = some d →
          d ∉ child_ids (prefix_node.mk t.root.id t.root.is_leaf
            (( insert_prefix (fun _ => true) (n + 1) (.mk c false []) rest).2.1 ::
              t.root.children)) := by
        intro v hv d hvd hmem
        simp only [child_ids, prefix_node.children_mk, List.map_cons, insert_prefix_id,
          prefix_node.id_mk, List.mem_cons] at hmem
        rcases hmem with hmem | hmem
        · apply hd.1
          rw [List.mem_map]
          exact ⟨v, hv, by rw [hvd, hmem]; rfl⟩
        · exact hnew v (List.mem_cons_of_mem _ hv) d hvd hmem
      rcases ih ( insert_prefix (fun _ => true) (n + 1) (.mk c false []) rest).2.2
        ⟨max t.depth (c :: rest).length, prefix_node.mk t.root.id t.root.is_leaf
          (( insert_prefix (fun _ => true) (n + 1) (.mk c false []) rest).2.1 ::
            t.root.children)⟩
        (fun v hv => hne v (List.mem_cons_of_mem _ hv)) hd.2 hnew1 with ⟨t1, h1, h2, h3⟩
      refine ⟨t1, h1, h2, ?_⟩
      rw [h3]
      simp only [prefix_node.children_mk, words_below_list, words_below_insert_fresh,
        insert_prefix_id, prefix_node.id_mk, List.reverse_cons, List.map_cons, List.map_nil,
        List.append_assoc, List.singleton_append]

/-- C16 (new children are prepended): when `insert_prefix` creates a child
under a node, the child list of the node afterwards is that child followed by
the former children in their order; hence, for words that are not empty and
have pairwise distinct first characters, inserted in order into a fresh tree,
the lookup of the empty prefix passes them in the reverse order. -/
theorem new_children_are_prepended (ws : List (List Char)) (hne : ∀ w ∈ ws, w ≠ [])
    (hnul : ∀ w ∈ ws, NUL ∉ w) (hd : (ws.map List.head?).Nodup) (cb_ctx : Nat) :
    (∀ (calloc : Nat → Bool) (n : Nat) (x : prefix_node) (c : Char) (rest : List Char),
      child_lookup_by_id x c = none → calloc n = true →
      ∃ child, child.id = c ∧
        ( insert_prefix calloc n x (c :: rest)).2.1.children = child :: x.children) ∧
    words_passed (prefix_tree_lookup true (tree_of ws) [] true cb_ctx) =
      ws.reverse.map some := by
  constructor
  · intro calloc n x c rest hnone ha
    rw [insert_prefix_new calloc n rest hnone ha]
    exact ⟨_, by rw [insert_prefix_id]; rfl, rfl⟩
  · rcases tree_of_spec ws with ⟨t, ht, _, _, _, _, hg⟩
    have hgood := hg hnul
    rw [ht, words_passed_lookup t hgood.2.1 hgood.2.2]
    have ht2 : (insert_words (fun _ => true) 2 (some ⟨0, .mk NUL false []⟩) ws).2.1 = some t := by
      rw [← run_eq_of_create (fun _ => true) rfl rfl]; exact ht
    rcases insert_words_distinct_heads ws 2 ⟨0, .mk NUL false []⟩ hne hd
      (by intro w _ c _; simp [child_ids, prefix_node.children]) with ⟨t1, h1, h2, h3⟩
    rw [ht2] at h1
    have : t = t1 := Option.some.inj h1
    subst this
    have hleaf : t.root.is_leaf = false := h2
    simp only [prefix_node.children_mk, words_below_list, List.append_nil] at h3
    simp [lookup_words, walk, hleaf, h3]

/-- C16 at a concrete input: "apple", "banana", "cherry" come back as "cherry",
"banana", "apple". -/
theorem new_children_are_prepended_witness :
    words_passed (prefix_tree_lookup true
        (tree_of ["apple".toList, "banana".toList, "cherry".toList]) [] true 0) =
      [some "cherry".toList, some "banana".toList, some "apple".toList] :=
  (new_children_are_prepended ["apple".toList, "banana".toList, "cherry".toList]
    (by decide) (by decide) (by decide) 0).2

/-! ## The order of the enumeration -/

theorem words_below_list_pairwise {cs : List prefix_node}
    (hn : (cs.map prefix_node.id).Nodup)
    (h : ∀ c ∈ cs, (words_below c).Pairwise (fun a b => ¬ (b <+: a ∧ b ≠ a))) :
    (words_below_list cs).Pairwise (fun a b => ¬ (b <+: a ∧ b ≠ a)) := by
  induction cs with
  | nil => simp [words_below_list]
  | cons head tail ih =>
    rw [List.map_cons, List.nodup_cons] at hn
    simp only [words_below_list]
    rw [List.pairwise_append]
    refine ⟨?_, ih hn.2 (fun c hc => h c (List.mem_cons_of_mem _ hc)), ?_⟩
    · rw [List.pairwise_map]
      refine (h head (List.mem_cons_self _ _)).imp ?_
      intro a b hab hcontra
      exact hab ⟨(List.prefix_cons_inj head.id).mp hcontra.1,
        fun e => hcontra.2 (by rw [e])⟩
    · intro a ha b hb hcontra
      rcases List.mem_map.mp ha with ⟨a1, _, rfl⟩
      rcases mem_words_below_list.mp hb with ⟨c, hc, s, _, rfl⟩
      have := (List.cons_prefix_cons.mp hcontra.1).1
      exact hn.1 (this ▸ List.mem_map_of_mem _ hc)

/-- With unique child ids, in the enumeration below a node no path comes after
a path of which it is a proper prefix. -/
theorem words_below_pairwise :
    ∀ t : prefix_node, all_nodes uniq_node t →
      (words_below t).Pairwise (fun a b => ¬ (b <+: a ∧ b ≠ a)) := by
  apply prefix_node.induct
  intro id is_leaf children ih ht
  rw [all_nodes_iff] at ht
  rw [words_below_eq]
  simp only [prefix_node.is_leaf_mk, prefix_node.children_mk] at ht ⊢
  rw [List.pairwise_append]
  refine ⟨by cases is_leaf <;> simp, ?_, ?_⟩
  · exact words_below_list_pairwise ht.1 (fun c hc => ih c hc (ht.2 c hc))
  · intro a ha b hb hcontra
    have hb0 := words_below_list_ne_nil_of_mem hb
    cases is_leaf
    · simp at ha
    · simp at ha
      subst ha
      exact hb0 (List.prefix_nil.mp hcontra.1)

theorem lookup_words_pairwise (t : prefix_tree) (hu : all_nodes uniq_node t.root)
    (pfx : List Char) : (lookup_words t pfx).Pairwise not_after := by
  unfold lookup_words
  cases hw : walk t.root pfx with
  | none => exact List.Pairwise.nil
  | some m =>
    have hm : all_nodes uniq_node m := walk_all_nodes pfx t.root m hu hw
    have hp := words_below_pairwise m hm
    rw [words_below_eq, List.pairwise_append] at hp
    simp only
    rw [List.pairwise_append]
    refine ⟨by cases m.is_leaf <;> simp, ?_, ?_⟩
    · rw [List.pairwise_map]
      refine hp.2.1.imp ?_
      intro a b hab U V hV hU hcontra
      have hV1 : pfx ++ a = V := Option.some.inj hV
      have hU1 : pfx ++ b = U := Option.some.inj hU
      subst hV1 hU1
      exact hab ⟨(List.prefix_append_right_inj pfx).mp hcontra.1,
        fun e => hcontra.2 (by rw [e])⟩
    · intro a ha b hb U V hV hU hcontra
      rcases List.mem_map.mp hb with ⟨s, hs, hsb⟩
      have hs0 := words_below_list_ne_nil_of_mem hs
      have hU1 : U = pfx ++ s := by rw [hU] at hsb; exact (Option.some.inj hsb).symm
      cases hl : m.is_leaf with
      | false => rw [hl] at ha; simp at ha
      | true =>
        rw [hl] at ha
        by_cases hp0 : pfx = []
        · simp [hp0] at ha
          rw [ha] at hV
          cases hV
        · simp only [if_true, if_neg hp0, List.mem_singleton] at ha
          rw [ha] at hV
          have hV1 : V = pfx := (Option.some.inj hV).symm
          have hlen := hcontra.1.length_le
          rw [hU1, hV1, List.length_append] at hlen
          have : s.length = 0 := by omega
          exact hs0 (List.length_eq_zero.mp this)

theorem lookup_words_head (t : prefix_tree) (pfx : List Char)
    (h : stored t.root pfx = true) :
    (lookup_words t pfx)[0]? = some (if pfx = [] then none else some pfx) := by
  unfold lookup_words
  cases hw : walk t.root pfx with
  | none =>
    have := stored_append pfx t.root []
    rw [List.append_nil, hw, h] at this
    cases this
  | some m =>
    rw [stored_eq_is_leaf hw] at h
    simp [h]

/-- Away from the call made at a marked root for the empty prefix: in the
tree of any run, when the prefix is not empty or the empty word was not
inserted, a stored word `U` that starts with the prefix is passed before every
stored word `V` of which `U` is a proper prefix. -/
theorem lookup_order_of_stored_words (calloc : Nat → Bool) (ws : List (List Char))
    (t : prefix_tree) (ht : (run calloc ws).2.1 = some t) (hws : ∀ w ∈ ws, NUL ∉ w)
    (pfx : List Char) (cb_ctx : Nat)
    (hne : pfx ≠ [] ∨ [] ∉ inserted_words ws (run calloc ws).1) (U V : List Char)
    (hU : U ∈ inserted_words ws (run calloc ws).1)
    (hV : V ∈ inserted_words ws (run calloc ws).1) (hp : pfx <+: U) (hUV : U <+: V)
    (hdiff : U ≠ V) :
    ∃ i j : Nat, i < j ∧
      (words_passed (prefix_tree_lookup true (some t) pfx true cb_ctx))[i]? = some (some U) ∧
      (words_passed (prefix_tree_lookup true (some t) pfx true cb_ctx))[j]? =
        some (some V) := by
  rcases run_spec calloc ws t ht with ⟨_, hst, hu, hg⟩
  have hgood := hg hws
  rw [words_passed_lookup t hgood.2.1 hgood.2.2]
  have hU0 : U ≠ [] := by
    rcases hne with h | h
    · intro e
      rw [e] at hp
      exact h (List.prefix_nil.mp hp)
    · intro e
      exact h (e ▸ hU)
  have hV0 : V ≠ [] := by
    intro e
    rw [e] at hUV
    exact hU0 (List.prefix_nil.mp hUV)
  have hmU := (lookup_words_mem_some t hu pfx U).mpr ⟨hp, hU0, (hst U).mpr hU⟩
  have hmV := (lookup_words_mem_some t hu pfx V).mpr ⟨hp.trans hUV, hV0, (hst V).mpr hV⟩
  rcases List.getElem?_of_mem hmU with ⟨i, hi⟩
  rcases List.getElem?_of_mem hmV with ⟨j, hj⟩
  refine ⟨i, j, ?_, hi, hj⟩
  have hpw := lookup_words_pairwise t hu pfx
  rw [List.pairwise_iff_getElem] at hpw
  rcases List.getElem?_eq_some.mp hi with ⟨hi1, hi2⟩
  rcases List.getElem?_eq_some.mp hj with ⟨hj1, hj2⟩
  by_contra hlt
  rcases Nat.lt_or_eq_of_le (Nat.le_of_not_lt hlt) with hji | hji
  · exact hpw j i hj1 hi1 hji U V hj2 hi2 ⟨hUV, hdiff⟩
  · subst hji
    rw [hi2] at hj2
    exact hdiff (Option.some.inj hj2)

/-! ## A lookup as a restriction of the full enumeration -/

theorem filter_words_below_list (c : Char) (rest : List Char) {cs : List prefix_node}
    (hn : (cs.map prefix_node.id).Nodup) :
    (words_below_list cs).filter (fun v => decide ((c :: rest) <+: v)) =
      match cs.find? (fun m => m.id == c) with
      | none => []
      | some child =>
        ((words_below child).filter (fun v => decide (rest <+: v))).map (c :: ·) := by
  induction cs with
  | nil => simp [words_below_list]
  | cons head tail ih =>
    rw [List.map_cons, List.nodup_cons] at hn
    simp only [words_below_list, List.filter_append]
    by_cases hh : head.id = c
    · have htail : (words_below_list tail).filter (fun v => decide ((c :: rest) <+: v)) = [] := by
        rw [List.filter_eq_nil_iff]
        intro v hv
        rcases mem_words_below_list.mp hv with ⟨d, hd, s, _, rfl⟩
        have hne : d.id ≠ c := by
          intro e
          exact hn.1 (by rw [hh, ← e]; exact List.mem_map_of_mem _ hd)
        simp [List.cons_prefix_cons, Ne.symm hne]
      rw [find_cons_eq _ hh, htail, List.append_nil, hh, List.filter_map]
      simp only
      congr 1
      apply List.filter_congr
      intro v _
      simp [List.cons_prefix_cons]
    · have hhead : ((words_below head).map (head.id :: ·)).filter
          (fun v => decide ((c :: rest) <+: v)) = [] := by
        rw [List.filter_eq_nil_iff]
        intro v hv
        rcases List.mem_map.mp hv with ⟨s, _, rfl⟩
        simp [List.cons_prefix_cons, Ne.symm hh]
      rw [find_cons_ne _ hh, hhead, List.nil_append]
      exact ih hn.2

/-- With unique child ids, the paths of the enumeration below a node that start
with `p` are, in the same order, the paths below the node that `p` leads to,
each with `p` in front. -/
theorem filter_words_below (p : List Char) :
    ∀ t : prefix_node, all_nodes uniq_node t →
      (words_below t).filter (fun v => decide (p <+: v)) =
        match walk t p with
        | none => []
        | some m => (words_below m).map (p ++ ·) := by
  induction p with
  | nil =>
    intro t _
    simp [walk]
  | cons c rest ih =>
    intro t ht
    have ht2 := (all_nodes_iff _ t).mp ht
    rw [words_below_eq, List.filter_append, walk_cons]
    have hleaf : (if t.is_leaf = true then [([] : List Char)] else []).filter
        (fun v => decide ((c :: rest) <+: v)) = [] := by
      cases t.is_leaf <;> simp
    rw [hleaf, List.nil_append, filter_words_below_list c rest ht2.1]
    have hl : child_lookup_by_id t c = t.children.find? (fun m => m.id == c) := rfl
    rw [← hl]
    cases hf : child_lookup_by_id t c with
    | none => rfl
    | some child =>
      simp only
      rw [ih child (ht2.2 child (child_lookup_some hf).1)]
      cases walk child rest with
      | none => rfl
      | some m => simp

/-- On a root that is not marked, the words of a lookup are the paths of the
enumeration below the root that start with the prefix, in the same order. -/
theorem lookup_words_unmarked (t : prefix_tree) (hu : all_nodes uniq_node t.root)
    (hl : t.root.is_leaf = false) (pfx : List Char) :
    lookup_words t pfx =
      ((words_below t.root).filter (fun v => decide (pfx <+: v))).map some := by
  rw [filter_words_below pfx t.root hu]
  unfold lookup_words
  cases hw : walk t.root pfx with
  | none => rfl
  | some m =>
    simp only
    rw [words_below_eq m]
    cases hm : m.is_leaf with
    | false => simp
    | true =>
      have hp : pfx ≠ [] := by
        intro e
        rw [e] at hw
        simp only [walk, Option.some.injEq] at hw
        rw [hw, hm] at hl
        cases hl
      simp [hp]

/-- When the empty word was not inserted, in the tree of any run, the words
passed by the lookup of a prefix are the words passed by the lookup of the
empty prefix that start with the prefix, in the same order. -/
theorem lookup_filter_without_empty_word (calloc : Nat → Bool) (ws : List (List Char))
    (t : prefix_tree) (ht : (run calloc ws).2.1 = some t) (hws : ∀ w ∈ ws, NUL ∉ w)
    (hne : [] ∉ inserted_words ws (run calloc ws).1) (pfx : List Char) (cb_ctx : Nat) :
    ∃ l : List (List Char),
      words_passed (prefix_tree_lookup true (some t) [] true cb_ctx) = l.map some ∧
      words_passed (prefix_tree_lookup true (some t) pfx true cb_ctx) =
        (l.filter (fun v => decide (pfx <+: v))).map some := by
  rcases run_spec calloc ws t ht with ⟨_, hst, hu, hg⟩
  have hgood := hg hws
  have hl : t.root.is_leaf = false := by
    cases h : t.root.is_leaf with
    | false => rfl
    | true =>
      exfalso
      apply hne
      rw [← hst []]
      simpa [stored] using h
  rw [words_passed_lookup t hgood.2.1 hgood.2.2, words_passed_lookup t hgood.2.1 hgood.2.2]
  refine ⟨words_below t.root, ?_, lookup_words_unmarked t hu hl pfx⟩
  rw [lookup_words_unmarked t hu hl []]
  congr 1
  rw [List.filter_eq_self]
  intro v _
  simp

/-! ## Every node lies on the path of a word -/

/-- A path that exists after `insert_prefix` of `w` existed before or is a
prefix of `w`. -/
theorem insert_prefix_paths (calloc : Nat → Bool) (w : List Char) :
    ∀ (n : Nat) (t : prefix_node) (p : List Char) (a1 : prefix_node),
      walk ( insert_prefix calloc n t w).2.1 p = some a1 →
      (∃ a, walk t p = some a) ∨ p <+: w := by
  induction w with
  | nil =>
    intro n t p a1 h
    rw [insert_prefix_nil] at h
    cases p with
    | nil => exact Or.inl ⟨t, rfl⟩
    | cons d p1 =>
      left
      refine ⟨a1, ?_⟩
      rw [walk_cons] at h ⊢
      exact h
  | cons c rest ih =>
    intro n t p a1 h
    cases p with
    | nil => exact Or.inl ⟨t, rfl⟩
    | cons d p1 =>
      rw [walk_cons] at h
      cases hf : child_lookup_by_id t c with
      | some node =>
        rw [insert_prefix_found calloc n rest hf] at h
        have hid : ( insert_prefix calloc n node rest).2.1.id = c := by
          rw [insert_prefix_id]; exact (child_lookup_some hf).2
        by_cases hd : d = c
        · subst hd
          rw [child_lookup_store_same hf hid] at h
          rcases ih n node p1 a1 h with ⟨a, ha⟩ | hp
          · left
            exact ⟨a, by rw [walk_cons, hf]; exact ha⟩
          · right
            exact (List.prefix_cons_inj d).mpr hp
        · rw [child_lookup_store_other hid hd] at h
          left
          exact ⟨a1, by rw [walk_cons]; exact h⟩
      | none =>
        cases hc : calloc n with
        | false =>
          rw [insert_prefix_fail calloc n rest hf hc] at h
          left
          exact ⟨a1, by rw [walk_cons]; exact h⟩
        | true =>
          rw [insert_prefix_new calloc n rest hf hc] at h
          have hid : ( insert_prefix calloc (n + 1) (.mk c false []) rest).2.1.id = c := by
            rw [insert_prefix_id]; rfl
          by_cases hd : d = c
          · subst hd
            rw [child_lookup_new_same _ _ _ hid] at h
            right
            rcases ih (n + 1) (.mk d false []) p1 a1 h with ⟨a, ha⟩ | hp
            · cases p1 with
              | nil => exact (List.prefix_cons_inj d).mpr List.nil_prefix
              | cons e p2 => rw [walk_fresh] at ha; cases ha
            · exact (List.prefix_cons_inj d).mpr hp
          · rw [child_lookup_new_other _ _ _ hid hd] at h
            left
            exact ⟨a1, by rw [walk_cons]; exact h⟩

theorem insert_words_paths (calloc : Nat → Bool) (ws : List (List Char)) :
    ∀ (n : Nat) (t t1 : prefix_tree) (p : List Char) (a1 : prefix_node),
      (insert_words calloc n (some t) ws).2.1 = some t1 → walk t1.root p = some a1 →
      (∃ a, walk t.root p = some a) ∨ ∃ w ∈ ws, p <+: w := by
  induction ws with
  | nil =>
    intro n t t1 p a1 h hw
    simp only [insert_words, Option.some.injEq] at h
    subst h
    exact Or.inl ⟨a1, hw⟩
  | cons w ws ih =>
    intro n t t1 p a1 h hw
    rw [insert_words_cons, prefix_tree_insert_word_eq] at h
    rcases ih _ ⟨max t.depth w.length, ( insert_prefix calloc n t.root w).2.1⟩ t1 p a1 h hw with
      ⟨a, ha⟩ | ⟨v, hv, hp⟩
    · rcases insert_prefix_paths calloc w n t.root p a ha with h1 | h1
      · exact Or.inl h1
      · exact Or.inr ⟨w, List.mem_cons_self _ _, h1⟩
    · exact Or.inr ⟨v, List.mem_cons_of_mem _ hv, hp⟩

/-- In the tree of any run, a path that exists is empty or a prefix of a word
passed to `prefix_tree_insert_word`. -/
theorem run_paths (calloc : Nat → Bool) (ws : List (List Char)) (t : prefix_tree)
    (ht : (run calloc ws).2.1 = some t) (p : List Char) (a : prefix_node)
    (h : walk t.root p = some a) : p = [] ∨ ∃ w ∈ ws, p <+: w := by
  rw [run_tree_some calloc ws t ht] at ht
  rcases insert_words_paths calloc ws 2 ⟨0, .mk NUL false []⟩ t p a ht h with ⟨a0, h0⟩ | h1
  · cases p with
    | nil => exact Or.inl rfl
    | cons d p1 => rw [walk_fresh] at h0; cases h0
  · exact Or.inr h1

theorem ids_at_ne_nil {t a : prefix_node} {pos : List Nat} (hp : pos ≠ [])
    (h : node_at t pos = some a) : ids_at t pos ≠ [] := by
  cases pos with
  | nil => exact absurd rfl hp
  | cons i rest =>
    rw [node_at] at h
    cases hx : t.children[i]? with
    | none => rw [hx] at h; cases h
    | some x => rw [ids_at, hx]; exact List.cons_ne_nil _ _

/-- C18 (no stray nodes): in the tree of any run, whatever allocations failed,
every node other than the root is reached from the root by child lookups along
the ids on the way to it and along no other sequence of ids, and that sequence
is not empty and is a prefix of a word passed to `prefix_tree_insert_word`. -/
theorem every_node_on_inserted_path (calloc : Nat → Bool) (ws : List (List Char))
    (t : prefix_tree) (ht : (run calloc ws).2.1 = some t) (pos : List Nat)
    (node : prefix_node) (hpos : pos ≠ []) (hn : node_at t.root pos = some node) :
    walk_pos t.root (ids_at t.root pos) = some pos ∧
    (∀ s, walk_pos t.root s = some pos → s = ids_at t.root pos) ∧
    ids_at t.root pos ≠ [] ∧ ∃ w ∈ ws, ids_at t.root pos <+: w := by
  have hu := (run_spec calloc ws t ht).2.2.1
  have hne := ids_at_ne_nil hpos hn
  refine ⟨walk_pos_ids_at pos t.root node hu hn, ?_, hne, ?_⟩
  · intro s hs
    exact (walk_pos_spec s t.root pos hs).2.1.symm
  · rcases run_paths calloc ws t ht _ node (walk_ids_at t.root node pos hu hn) with h | h
    · exact absurd h hne
    · exact h

/-- C18 at a concrete input: in the tree that holds "ab", the node at the end
of the chain is reached by the ids "ab" only. -/
theorem every_node_on_inserted_path_witness :
    node_at tree_ab.root [0, 0] = some (.mk 'b' true []) ∧
    walk_pos tree_ab.root (ids_at tree_ab.root [0, 0]) = some [0, 0] ∧
    ids_at tree_ab.root [0, 0] = "ab".toList ∧
    ∃ w ∈ ["ab".toList], ids_at tree_ab.root [0, 0] <+: w := by
  have h := every_node_on_inserted_path (fun _ => true) ["ab".toList] tree_ab rfl [0, 0]
    (.mk 'b' true []) (by decide) rfl
  exact ⟨rfl, h.1, by decide, h.2.2.2⟩

/-! ## Counting nodes -/

theorem paths_eq (t : prefix_node) : paths t = [] :: paths_list t.children := by
  cases t; simp [paths, prefix_node.children]

theorem paths_list_length {cs : List prefix_node}
    (h : ∀ c ∈ cs, (paths c).length = node_count c) :
    (paths_list cs).length = node_count_list cs := by
  induction cs with
  | nil => rfl
  | cons head tail ih =>
    simp only [paths_list, node_count_list, List.length_append, List.length_map]
    rw [h head (List.mem_cons_self _ _), ih (fun c hc => h c (List.mem_cons_of_mem _ hc))]

/-- There are as many sequences of ids in `paths` as nodes. -/
theorem paths_length : ∀ t : prefix_node, (paths t).length = node_count t := by
  apply prefix_node.induct
  intro id is_leaf children ih
  rw [paths_eq, node_count_eq]
  simp only [prefix_node.children_mk, List.length_cons]
  rw [paths_list_length ih]
  omega

theorem mem_paths_list {cs : List prefix_node} {p : List Char} :
    p ∈ paths_list cs ↔ ∃ c ∈ cs, ∃ s ∈ paths c, p = c.id :: s := by
  induction cs with
  | nil => simp [paths_list]
  | cons head tail ih =>
    simp only [paths_list, List.mem_append, List.mem_map, ih, List.mem_cons]
    constructor
    · rintro (⟨s, hs, rfl⟩ | ⟨c, hc, s, hs, rfl⟩)
      · exact ⟨head, Or.inl rfl, s, hs, rfl⟩
      · exact ⟨c, Or.inr hc, s, hs, rfl⟩
    · rintro ⟨c, hc | hc, s, hs, rfl⟩
      · subst hc; exact Or.inl ⟨s, hs, rfl⟩
      · exact Or.inr ⟨c, hc, s, hs, rfl⟩

/-- With unique child ids, `paths` lists exactly the sequences of ids that
child lookups can follow. -/
theorem mem_paths_iff :
    ∀ t : prefix_node, all_nodes uniq_node t →
      ∀ p : List Char, p ∈ paths t ↔ ∃ a, walk t p = some a := by
  apply prefix_node.induct
  intro id is_leaf children ih ht p
  rw [all_nodes_iff] at ht
  rw [paths_eq]
  simp only [prefix_node.children_mk] at ht ⊢
  cases p with
  | nil => simp [walk]
  | cons d p1 =>
    simp only [List.mem_cons, List.cons_ne_nil, false_or, reduceCtorEq]
    rw [mem_paths_list, walk_cons]
    constructor
    · rintro ⟨c, hc, s, hs, e⟩
      have hd : d = c.id := (List.cons.inj e).1
      have hv : p1 = s := (List.cons.inj e).2
      have hf : child_lookup_by_id (.mk id is_leaf children) d = some c := by
        rw [hd]; exact find_of_nodup ht.1 hc
      rw [hf]
      simp only
      rw [hv]
      exact (ih c hc (ht.2 c hc) s).mp hs
    · intro h
      cases hf : child_lookup_by_id (.mk id is_leaf children) d with
      | none => rw [hf] at h; rcases h with ⟨a, ha⟩; cases ha
      | some c =>
        rw [hf] at h
        have hc := child_lookup_some hf
        simp only [prefix_node.children_mk] at hc
        exact ⟨c, hc.1, p1, (ih c hc.1 (ht.2 c hc.1) p1).mpr h, by rw [hc.2]⟩

theorem paths_list_nodup {cs : List prefix_node}
    (hn : (cs.map prefix_node.id).Nodup) (h : ∀ c ∈ cs, (paths c).Nodup) :
    (paths_list cs).Nodup := by
  induction cs with
  | nil => simp [paths_list]
  | cons head tail ih =>
    rw [List.map_cons, List.nodup_cons] at hn
    simp only [paths_list]
    rw [List.nodup_append]
    refine ⟨?_, ih hn.2 (fun c hc => h c (List.mem_cons_of_mem _ hc)), ?_⟩
    · exact (h head (List.mem_cons_self _ _)).map (fun a b e => (List.cons.inj e).2)
    · intro v hv1 hv2
      rcases List.mem_map.mp hv1 with ⟨s, _, rfl⟩
      rcases mem_paths_list.mp hv2 with ⟨c, hc, s2, _, e⟩
      exact hn.1 ((List.cons.inj e).1 ▸ List.mem_map_of_mem _ hc)

theorem paths_nodup : ∀ t : prefix_node, all_nodes uniq_node t → (paths t).Nodup := by
  apply prefix_node.induct
  intro id is_leaf children ih ht
  rw [all_nodes_iff] at ht
  rw [paths_eq]
  simp only [prefix_node.children_mk] at ht ⊢
  rw [List.nodup_cons]
  refine ⟨?_, paths_list_nodup ht.1 (fun c hc => ih c hc (ht.2 c hc))⟩
  intro h
  rcases mem_paths_list.mp h with ⟨c, _, s, _, e⟩
  cases e

theorem walk_of_append (p : List Char) :
    ∀ (t a : prefix_node) (s : List Char), walk t (p ++ s) = some a →
      ∃ b, walk t p = some b := by
  induction p with
  | nil => intro t a s _; exact ⟨t, rfl⟩
  | cons c rest ih =>
    intro t a s h
    rw [List.cons_append, walk_cons] at h
    rw [walk_cons]
    cases hf : child_lookup_by_id t c with
    | none => rw [hf] at h; cases h
    | some child => rw [hf] at h; exact ih child a s h

theorem walk_of_stored {t : prefix_node} {w : List Char} (h : stored t w = true) :
    ∃ a, walk t w = some a := by
  have := stored_append w t []
  rw [List.append_nil, h] at this
  cases hw : walk t w with
  | none => rw [hw] at this; cases this
  | some a => exact ⟨a, rfl⟩

/-- In the tree of a run whose insertions all returned `true`, the paths that
exist are the empty one and the prefixes of the words inserted. -/
theorem run_paths_iff (calloc : Nat → Bool) (ws : List (List Char)) (t : prefix_tree)
    (ht : (run calloc ws).2.1 = some t) (hok : ∀ r ∈ (run calloc ws).1, r = true)
    (p : List Char) : (∃ a, walk t.root p = some a) ↔ p = [] ∨ ∃ w ∈ ws, p <+: w := by
  constructor
  · rintro ⟨a, ha⟩
    exact run_paths calloc ws t ht p a ha
  · rintro (h | ⟨w, hw, s, rfl⟩)
    · subst h; exact ⟨t.root, rfl⟩
    · have hst := (run_spec calloc ws t ht).2.1 (p ++ s)
      rw [inserted_words_all_true ws _ (run_rets_length calloc ws t ht) hok] at hst
      rcases walk_of_stored (hst.mpr hw) with ⟨a, ha⟩
      exact walk_of_append p t.root a s ha

theorem mem_nonempty_prefixes (ws : List (List Char)) (p : List Char) :
    p ∈ nonempty_prefixes ws ↔ p ≠ [] ∧ ∃ w ∈ ws, p <+: w := by
  unfold nonempty_prefixes
  rw [List.mem_dedup, List.mem_flatMap]
  constructor
  · rintro ⟨w, hw, hp⟩
    rw [List.mem_filter, List.mem_inits] at hp
    exact ⟨by simpa using hp.2, w, hw, hp.1⟩
  · rintro ⟨hne, w, hw, hp⟩
    refine ⟨w, hw, ?_⟩
    rw [List.mem_filter, List.mem_inits]
    exact ⟨hp, by simpa using hne⟩

theorem missing_prefixes_fresh (c : Char) (l : List Char) :
    (missing_prefixes (.mk c false []) l).length = l.length := by
  unfold missing_prefixes
  cases l with
  | nil => simp [List.inits, walk]
  | cons a l1 =>
    rw [List.inits_cons, List.filter_cons]
    simp only [walk, Option.isNone_some, Bool.false_eq_true, if_false]
    rw [List.filter_eq_self.mpr]
    · simp [List.length_inits]
    · intro p hp
      rcases List.mem_map.mp hp with ⟨q, _, rfl⟩
      rw [walk_fresh]
      rfl

/-- A successful `insert_prefix` of `w` makes one `calloc` call for each prefix
of `w` that was not yet a path. -/
theorem insert_prefix_calls (calloc : Nat → Bool) (w : List Char) :
    ∀ (n : Nat) (t : prefix_node), ( insert_prefix calloc n t w).1 = true →
      ( insert_prefix calloc n t w).2.2 = n + (missing_prefixes t w).length := by
  induction w with
  | nil =>
    intro n t _
    rw [insert_prefix_nil]
    simp [missing_prefixes, List.inits, walk]
  | cons c rest ih =>
    intro n t
    have hinits : missing_prefixes t (c :: rest) =
        (rest.inits.filter (fun p => (walk t (c :: p)).isNone)).map (c :: ·) := by
      unfold missing_prefixes
      rw [List.inits_cons, List.filter_cons]
      simp only [walk, Option.isNone_some, Bool.false_eq_true, if_false]
      rw [List.filter_map]
      rfl
    cases hf : child_lookup_by_id t c with
    | some node =>
      rw [insert_prefix_found calloc n rest hf]
      intro hs
      rw [ih n node hs, hinits, List.length_map]
      congr 2
      apply List.filter_congr
      intro p _
      rw [walk_cons, hf]
    | none =>
      cases hc : calloc n with
      | false => rw [insert_prefix_fail calloc n rest hf hc]; intro hs; cases hs
      | true =>
        rw [insert_prefix_new calloc n rest hf hc]
        intro hs
        rw [ih (n + 1) _ hs, missing_prefixes_fresh, hinits, List.length_map,
          List.filter_eq_self.mpr, List.length_inits]
        · omega
        · intro p _
          rw [walk_cons, hf]
          rfl

/-- C20 (prefix sharing): in the tree of a run whose insertions all returned
`true`, the number of nodes other than the root is the number of distinct
prefixes, not empty, of the words inserted; one more successful insertion of
a word `W` adds as many nodes as `W` has prefixes that are not yet paths, and
none if `W` is a prefix of a word inserted before. -/
theorem nodes_are_distinct_prefixes (calloc : Nat → Bool) (ws : List (List Char))
    (t : prefix_tree) (ht : (run calloc ws).2.1 = some t)
    (hok : ∀ r ∈ (run calloc ws).1, r = true) :
    node_count t.root = (nonempty_prefixes ws).length + 1 ∧
    ∀ (calloc1 : Nat → Bool) (n : Nat) (W : List Char),
      ( insert_prefix calloc1 n t.root W).1 = true →
      node_count ( insert_prefix calloc1 n t.root W).2.1 =
        node_count t.root + (missing_prefixes t.root W).length ∧
      ((∃ w ∈ ws, W <+: w) →
        node_count ( insert_prefix calloc1 n t.root W).2.1 = node_count t.root) := by
  have hu := (run_spec calloc ws t ht).2.2.1
  constructor
  · rw [← paths_length]
    have hperm : (paths t.root).Perm ([] :: nonempty_prefixes ws) := by
      rw [List.perm_ext_iff_of_nodup (paths_nodup t.root hu)]
      · intro p
        rw [mem_paths_iff t.root hu, run_paths_iff calloc ws t ht hok, List.mem_cons,
          mem_nonempty_prefixes]
        by_cases hp : p = []
        · simp [hp]
        · simp [hp]
      · rw [List.nodup_cons]
        refine ⟨?_, List.nodup_dedup _⟩
        intro h
        exact ((mem_nonempty_prefixes ws []).mp h).1 rfl
    rw [hperm.length_eq, List.length_cons]
  · intro calloc1 n W hs
    have hcount := insert_prefix_node_count calloc1 W n t.root
    rw [hs, insert_prefix_calls calloc1 W n t.root hs] at hcount
    simp only [if_true] at hcount
    have h1 : node_count ( insert_prefix calloc1 n t.root W).2.1 =
        node_count t.root + (missing_prefixes t.root W).length := by omega
    refine ⟨h1, ?_⟩
    rintro ⟨w, hw, hW⟩
    have hnil : missing_prefixes t.root W = [] := by
      unfold missing_prefixes
      rw [List.filter_eq_nil_iff]
      intro p hp
      rw [List.mem_inits] at hp
      rcases (run_paths_iff calloc ws t ht hok p).mpr
        (Or.inr ⟨w, hw, hp.trans hW⟩) with ⟨a, ha⟩
      rw [ha]
      simp
    rw [h1, hnil]
    rfl

/-- C20 at a concrete input: the four words of `main` have 17 distinct
prefixes that are not empty, and their tree has 17 nodes besides the root. -/
theorem nodes_are_distinct_prefixes_witness :
    ∃ t, (run (fun _ => true)
        ["apple".toList, "ap".toList, "avocado".toList, "banana".toList]).2.1 = some t ∧
      node_count t.root = 17 + 1 ∧
      (nonempty_prefixes
        ["apple".toList, "ap".toList, "avocado".toList, "banana".toList]).length = 17 := by
  rcases tree_of_spec ["apple".toList, "ap".toList, "avocado".toList, "banana".toList] with
    ⟨t, ht, _⟩
  have hlen : (nonempty_prefixes
      ["apple".toList, "ap".toList, "avocado".toList, "banana".toList]).length = 17 := by
    decide!
  have h := (nodes_are_distinct_prefixes (fun _ => true)
    ["apple".toList, "ap".toList, "avocado".toList, "banana".toList] t ht (by decide)).1
  rw [hlen] at h
  exact ⟨t, ht, h, hlen⟩

/-! ## Lookups on a block whose bytes are known -/

/-- `prefix_tree_lookup`, past its guards, is `prefix_tree_lookup_on` for a
block of which nothing is known. -/
theorem prefix_tree_lookup_eq_on (t : prefix_tree) (pfx : List Char) (cb_ctx : Nat) :
    prefix_tree_lookup true (some t) pfx true cb_ctx =
      prefix_tree_lookup_on (fun _ => none) t pfx cb_ctx := by
  have h : (List.range (t.depth + 1)).map (fun _ => (none : Option Char)) =
      List.replicate (t.depth + 1) none := by
    rw [List.map_const', List.length_range]
  unfold prefix_tree_lookup prefix_tree_lookup_on
  rw [h]
  simp

/-- C5 (idempotent insertion), at the input where the code departs from it:
in the tree of "", "a", "ab", inserting "a" again returns `true` and leaves
the tree as it was; but the lookup of the empty prefix reads its first word
from a block that it never wrote, so a lookup before and a lookup after the
insertion, on blocks that hold different bytes, pass different words. -/
theorem reinsert_then_lookups_differ :
    (run (fun _ => true) [[], "a".toList, "ab".toList]).2.1 = some tree_e_a_ab ∧
    prefix_tree_insert_word (fun _ => true) 4 (some tree_e_a_ab) "a".toList =
      (true, some tree_e_a_ab, 4) ∧
    words_passed (prefix_tree_lookup_on bytes_zero tree_e_a_ab [] 0) =
      [some [], some "a".toList, some "ab".toList] ∧
    words_passed (prefix_tree_lookup_on (bytes_of "Z".toList) tree_e_a_ab [] 0) =
      [some "Z".toList, some "a".toList, some "ab".toList] :=
  ⟨rfl, rfl, by decide, by decide⟩

/-- C9 (state after a failed insertion), at the input where the code departs
from it: in the tree that holds the empty word, the insertion of "ab" with its
first allocation failing returns `false` and changes the depth only, from 0 to
2; the lookup of the empty prefix then reads its one word from a block of 3
bytes, no longer 1, that it never wrote: on a heap that left "Z" there the
lookup before passes no determinate word (the read leaves the block of 1 byte)
and the lookup after passes "Z", while on a heap of `'\0'` bytes the lookup
before passes the empty word. -/
theorem failed_insert_then_lookups_differ :
    (run (fun _ => true) [[]]).2.1 = some ⟨0, .mk NUL true []⟩ ∧
    prefix_tree_insert_word (fun _ => false) 2 (some ⟨0, .mk NUL true []⟩) "ab".toList =
      (false, some ⟨2, .mk NUL true []⟩, 3) ∧
    words_passed (prefix_tree_lookup_on bytes_zero ⟨0, .mk NUL true []⟩ [] 0) = [some []] ∧
    words_passed (prefix_tree_lookup_on (bytes_of "Z".toList) ⟨0, .mk NUL true []⟩ [] 0) =
      [none] ∧
    words_passed (prefix_tree_lookup_on (bytes_of "Z".toList) ⟨2, .mk NUL true []⟩ [] 0) =
      [some "Z".toList] :=
  ⟨rfl, rfl, by decide, by decide, by decide⟩

/-- C15 (pre-order enumeration), at the input where the code departs from it:
in the tree of "", "a", "ab" the lookup of the empty prefix reads its first
word from a block that it never wrote. The stored empty word, a proper prefix
of "a", is not passed when nothing is known of the block; and on a heap that
left "ab" in the block the words passed are "ab", "a", "ab", so that "ab" is
passed before its proper prefix "a". -/
theorem lookup_order_broken_by_unwritten_block :
    (run (fun _ => true) [[], "a".toList, "ab".toList]).2.1 = some tree_e_a_ab ∧
    words_passed (prefix_tree_lookup true (some tree_e_a_ab) [] true 0) =
      [none, some "a".toList, some "ab".toList] ∧
    some [] ∉ words_passed (prefix_tree_lookup true (some tree_e_a_ab) [] true 0) ∧
    words_passed (prefix_tree_lookup_on (bytes_of "ab".toList) tree_e_a_ab [] 0) =
      [some "ab".toList, some "a".toList, some "ab".toList] :=
  ⟨rfl, by decide, by decide, by decide⟩

/-- C19 (a lookup is a restriction of the full enumeration), at the input where
the code departs from it: in the tree of "", "a", "ab", on a heap that left
"Z" in the block, the lookup of the empty prefix passes "Z", "a", "ab", of
which "Z" starts with the prefix "Z", while the lookup of "Z" passes
nothing. -/
theorem lookup_not_filter_on_unwritten_block :
    (run (fun _ => true) [[], "a".toList, "ab".toList]).2.1 = some tree_e_a_ab ∧
    words_passed (prefix_tree_lookup_on (bytes_of "Z".toList) tree_e_a_ab [] 0) =
      [some "Z".toList, some "a".toList, some "ab".toList] ∧
    "Z".toList <+: "Z".toList ∧
    words_passed (prefix_tree_lookup_on (bytes_of "Z".toList) tree_e_a_ab "Z".toList 0) = [] :=
  ⟨rfl, by decide, by decide, by decide⟩
